import Mathlib

/- Verification of the Stable Scheduler core: the calendar range expander,
   the two-pass assignment engine, the manual override cycler and the
   iCal export serializer, shallowly embedded from the JavaScript source.

   Calendar days are modelled as year/month/day triples; JavaScript Date
   values normalized to midnight are in bijection with valid triples, and
   Date timestamp comparison agrees with comparison of the serial day
   number computed below.  The scheduler itself (which keys its schedule
   object by the ISO YYYY-MM-DD string, an injective image of the day)
   works on serial day numbers. -/

/-- Calendar day with year, month (1-12) and day-of-month (1-based): the
calendar-date part of a JavaScript Date normalized to midnight. -/
structure CalDate where
  year : Nat
  month : Nat
  day : Nat
deriving DecidableEq

/-- Leap-year rule of the Gregorian calendar, as implemented by JavaScript
Date arithmetic. -/
def isLeapYear (y : Nat) : Bool := (y % 4 == 0 && y % 100 != 0) || (y % 400 == 0)

/-- Number of days of month m in year y (Gregorian). -/
def daysInMonth (y m : Nat) : Nat :=
  if m = 2 then (if isLeapYear y then 29 else 28)
  else if m = 4 ∨ m = 6 ∨ m = 9 ∨ m = 11 then 30 else 31

/-- Valid proleptic-Gregorian dates with positive year. -/
def validDate (d : CalDate) : Prop :=
  1 ≤ d.year ∧ 1 ≤ d.month ∧ d.month ≤ 12 ∧ 1 ≤ d.day ∧ d.day ≤ daysInMonth d.year d.month

instance (d : CalDate) : Decidable (validDate d) := by
  unfold validDate; infer_instance

/-- Successor calendar day: the effect of current.setDate(current.getDate() + 1)
on the calendar date of a JavaScript Date. -/
def nextDay (d : CalDate) : CalDate :=
  if d.day < daysInMonth d.year d.month then ⟨d.year, d.month, d.day + 1⟩
  else if d.month < 12 then ⟨d.year, d.month + 1, 1⟩
  else ⟨d.year + 1, 1, 1⟩

/-- Number of days in months 1..m of year y. -/
def daysThroughMonth (y : Nat) : Nat → Nat
  | 0 => 0
  | m + 1 => daysThroughMonth y m + daysInMonth y (m + 1)

/-- Number of leap years among years 1..y. -/
def leapCount (y : Nat) : Nat := y / 4 - y / 100 + y / 400

/-- Number of days in the years 1..y-1. -/
def daysBeforeYear (y : Nat) : Nat := 365 * (y - 1) + leapCount (y - 1)

/-- Serial day number (rata die): 0001-01-01 has serial 1.  The ordering of
serial numbers coincides with the ordering of JavaScript Date timestamps,
and serial mod 7 is the JavaScript getDay() weekday (0 = Sunday, 6 = Saturday). -/
def toSerial (d : CalDate) : Nat :=
  daysBeforeYear d.year + daysThroughMonth d.year (d.month - 1) + d.day

/-- Loop of generateDates: while (current <= end) { dates.push(new Date(current));
current.setDate(current.getDate() + 1) }.  The loop body executes once per
serial day in the inclusive range, so the iteration count is
toSerial endDate + 1 - toSerial startDate (zero when start is after end);
the recursion is driven by that count. -/
def generateDatesAux : Nat → CalDate → List CalDate
  | 0, _ => []
  | n + 1, cur => cur :: generateDatesAux n (nextDay cur)

/-- Source function generateDates(startDate, endDate): expands an inclusive
date range into the ordered list of its calendar days. -/
def generateDates (startDate endDate : CalDate) : List CalDate :=
  generateDatesAux (toSerial endDate + 1 - toSerial startDate) startDate

/-- Rider record as the engine sees it: id and blocked dates (serials). -/
structure Rider where
  id : Nat
  blockedDates : List Nat
deriving DecidableEq

/-- Per-rider fairness counters: stats[r.id] = { total, saturdays }. -/
structure RStats where
  total : Nat
  saturdays : Nat
deriving DecidableEq

/-- Schedule object: day maps to key-absent, explicit null, or a rider id. -/
def Schedule : Type := Nat → Option (Option Nat)

/-- Update of the schedule object at one key (spread / bracket assignment). -/
def Schedule.set (s : Schedule) (d : Nat) (v : Option Nat) : Schedule :=
  fun k => if k = d then some v else s k

/-- Lookup seeing only real assignments: strict equality of the stored value
against a rider id in the source is false for both undefined and null. -/
def realAssigned (s : Schedule) (d : Nat) : Option Nat :=
  match s d with
  | some (some i) => some i
  | _ => none

/-- isSaturday on serial day numbers: getDay() === 6. -/
def isSaturdayS (d : Nat) : Bool := d % 7 == 6

/-- isFriSatSun on serial day numbers: getDay() ∈ {5, 6, 0}. -/
def isFriSatSunS (d : Nat) : Bool := d % 7 == 5 || d % 7 == 6 || d % 7 == 0

/-- Engine state during generation: the schedule being built and the stats. -/
structure GenState where
  sched : Schedule
  stats : Nat → RStats

/-- Fresh state: empty schedule object, all counters zero. -/
def initState : GenState :=
  { sched := fun _ => none, stats := fun _ => { total := 0, saturdays := 0 } }

/-- Stable insertion of a before the first element it compares le to. -/
def sortedInsert (le : Rider → Rider → Bool) (a : Rider) : List Rider → List Rider
  | [] => [a]
  | b :: bs => if le a b then a :: b :: bs else b :: sortedInsert le a bs

/-- Stable sort by the comparator le: extensionally the function computed by
JavaScript Array.prototype.sort with a consistent comparator (sort is
required to be stable, and a stable sorted permutation is unique). -/
def sortLe (le : Rider → Rider → Bool) : List Rider → List Rider
  | [] => []
  | a :: as => sortedInsert le a (sortLe le as)

/-- Pass-1 comparator: ascending saturdays count, then ascending total. -/
def leSat (stats : Nat → RStats) (a b : Rider) : Bool :=
  decide ((stats a.id).saturdays < (stats b.id).saturdays ∨
    ((stats a.id).saturdays = (stats b.id).saturdays ∧ (stats a.id).total ≤ (stats b.id).total))

/-- Pass-2 comparator: ascending total. -/
def leTotal (stats : Nat → RStats) (a b : Rider) : Bool :=
  decide ((stats a.id).total ≤ (stats b.id).total)

/-- Availability filter, shared by both passes and by manualAssign:
riders.filter(r => !r.blockedDates.includes(dateStr)). -/
def eligibleRiders (riders : List Rider) (d : Nat) : List Rider :=
  riders.filter fun r => !(r.blockedDates.contains d)

/-- stats[chosen.id].total++ of pass 2. -/
def bumpTotal (stats : Nat → RStats) (i : Nat) : Nat → RStats :=
  fun j => if j = i then { total := (stats j).total + 1, saturdays := (stats j).saturdays }
    else stats j

/-- stats[chosen.id].total++; stats[chosen.id].saturdays++ of pass 1. -/
def bumpBoth (stats : Nat → RStats) (i : Nat) : Nat → RStats :=
  fun j => if j = i then { total := (stats j).total + 1, saturdays := (stats j).saturdays + 1 }
    else stats j

/-- Walk back from the current day to the most recent Sunday at or before it:
the source loops while (check.getDay() !== 0) { check.setDate(-1) }.  The
loop body runs d % 7 ≤ 6 times, so recursion depth 7 covers every case. -/
def backToSundayAux : Nat → Nat → Nat
  | 0, d => d
  | n + 1, d => if d % 7 = 0 then d else backToSundayAux n (d - 1)

def backToSunday (d : Nat) : Nat := backToSundayAux 7 d

/-- workedLastWeekend(currentDate, candidateId): whether the candidate is
assigned on any of the Friday/Saturday/Sunday of the weekend ending at the
most recent Sunday at or before the current day, days at or after the
current day excluded. -/
def workedLastWeekend (sched : Schedule) (currentDate candidateId : Nat) : Bool :=
  let lastSun := backToSunday currentDate
  let lastSat := lastSun - 1
  let lastFri := lastSun - 2
  [lastFri, lastSat, lastSun].any fun x =>
    if currentDate ≤ x then false else decide (realAssigned sched x = some candidateId)

/-- Pass-1 candidate pool for an anchor day: availability filter, then the
soft no-consecutive-Saturdays filter, kept only when it leaves candidates. -/
def pass1Cands (riders : List Rider) (st : GenState) (d : Nat) : List Rider :=
  let prevSatWorker := realAssigned st.sched (d - 7)
  let softCands := (eligibleRiders riders d).filter fun r => decide (prevSatWorker ≠ some r.id)
  if softCands.isEmpty then eligibleRiders riders d else softCands

/-- Pass-1 chosen rider: candidates[0] after the shuffle-then-sort, none when
the pool is empty.  The in-place shuffle (Array.sort with a Math.random
comparator) yields an arbitrary permutation; it is modelled by the oracle sh
recording the permutation realized at each day.  The [] branch of the match
is unreachable whenever sh permutes its input. -/
def pass1Choice (riders : List Rider) (sh : Nat → List Rider → List Rider)
    (st : GenState) (d : Nat) : Option Rider :=
  let cands := pass1Cands riders st d
  if cands.isEmpty then none
  else
    match sortLe (leSat st.stats) (sh d cands) with
    | [] => none
    | c :: _ => some c

/-- Pass-1 step for one anchor day: newSchedule[dateStr] = null when the pool
is empty, else assign the chosen rider and bump total and saturdays. -/
def pass1Day (riders : List Rider) (sh : Nat → List Rider → List Rider)
    (st : GenState) (d : Nat) : GenState :=
  match pass1Choice riders sh st d with
  | none => { st with sched := st.sched.set d none }
  | some c => { sched := Schedule.set st.sched d (some c.id), stats := bumpBoth st.stats c.id }

/-- Hard adjacency filter of pass 2: drop yesterday's and tomorrow's
assignees; if that empties the pool, re-admit yesterday's person but keep
excluding tomorrow's. -/
def adjacencyFiltered (riders : List Rider) (sched : Schedule) (d : Nat) : List Rider :=
  let yw := realAssigned sched (d - 1)
  let tw := realAssigned sched (d + 1)
  let nonConsec :=
    (eligibleRiders riders d).filter fun r => decide (yw ≠ some r.id ∧ tw ≠ some r.id)
  if nonConsec.isEmpty then (eligibleRiders riders d).filter fun r => decide (tw ≠ some r.id)
  else nonConsec

/-- Soft weekend-repeat filter of pass 2: on a Fri/Sat/Sun day drop everyone
who worked the previous weekend, but only when somebody remains. -/
def weekendFiltered (sched : Schedule) (d : Nat) (cands : List Rider) : List Rider :=
  if isFriSatSunS d then
    let fresh := cands.filter fun r => !(workedLastWeekend sched d r.id)
    if fresh.isEmpty then cands else fresh
  else cands

/-- Pass-2 candidate pool: availability, hard adjacency, soft weekend. -/
def pass2Cands (riders : List Rider) (st : GenState) (d : Nat) : List Rider :=
  weekendFiltered st.sched d (adjacencyFiltered riders st.sched d)

/-- Pass-2 chosen rider: candidates[0] after shuffle-then-sort by total. -/
def pass2Choice (riders : List Rider) (sh : Nat → List Rider → List Rider)
    (st : GenState) (d : Nat) : Option Rider :=
  let cands := pass2Cands riders st d
  if cands.isEmpty then none
  else
    match sortLe (leTotal st.stats) (sh d cands) with
    | [] => none
    | c :: _ => some c

/-- Pass-2 step for one fill day. -/
def pass2Day (riders : List Rider) (sh : Nat → List Rider → List Rider)
    (st : GenState) (d : Nat) : GenState :=
  match pass2Choice riders sh st d with
  | none => { st with sched := st.sched.set d none }
  | some c => { sched := Schedule.set st.sched d (some c.id), stats := bumpTotal st.stats c.id }

/-- PASS 1: dates.filter(isSaturday).forEach(...). -/
def pass1 (riders : List Rider) (sh : Nat → List Rider → List Rider)
    (st : GenState) (l : List Nat) : GenState :=
  l.foldl (pass1Day riders sh) st

/-- PASS 2: dates.filter(d => !isSaturday(d)).forEach(...). -/
def pass2 (riders : List Rider) (sh : Nat → List Rider → List Rider)
    (st : GenState) (l : List Nat) : GenState :=
  l.foldl (pass2Day riders sh) st

/-- The generation entry point generateSchedule: fresh schedule and zeroed
stats, pass 1 over the Saturdays of the expanded range in order, then pass 2
over the remaining days in order.  days is the expanded date range as serial
day numbers; sh records the outcome of the Math.random shuffle at each day. -/
def generateSchedule (riders : List Rider) (sh : Nat → List Rider → List Rider)
    (days : List Nat) : GenState :=
  pass2 riders sh (pass1 riders sh initState (days.filter fun d => isSaturdayS d))
    (days.filter fun d => !isSaturdayS d)

/-- State of the schedule just before the fill pass processes day x (the
anchor pass complete, the fill pass done for every earlier fill day). -/
def fillStateBefore (riders : List Rider) (sh : Nat → List Rider → List Rider)
    (days : List Nat) (x : Nat) : GenState :=
  pass2 riders sh (pass1 riders sh initState (days.filter fun d => isSaturdayS d))
    ((days.filter fun d => !isSaturdayS d).filter fun d => decide (d < x))

/-- Identity shuffle outcome: one possible realization of the Math.random
shuffle (the one leaving the array unchanged). -/
def shId : Nat → List Rider → List Rider := fun _ l => l

/-- Invariant of the anchor pass when no candidate is ever blocked: every
saturdays counter is at most 1 and every rider already written into the
schedule is a roster member whose saturdays counter is exactly 1. -/
def P1Inv (riders : List Rider) (st : GenState) : Prop :=
  (∀ w : Nat, (st.stats w).saturdays ≤ 1) ∧
  (∀ x w, realAssigned st.sched x = some w →
    (∃ r ∈ riders, r.id = w) ∧ (st.stats w).saturdays = 1)

/-- Reversing shuffle outcome: another possible realization of the
Math.random shuffle. -/
def shRev : Nat → List Rider → List Rider := fun _ l => l.reverse

/-- JavaScript Array.prototype.indexOf on the cycle list: index of the first
strict-equality match, -1 when absent (also -1 for undefined, since the list
holds only rider ids and null). -/
def listIndexOf (v : Option Nat) : List (Option Nat) → Int
  | [] => -1
  | a :: t =>
    if a = v then 0
    else if listIndexOf v t = -1 then -1 else listIndexOf v t + 1

/-- cycleList of manualAssign: eligible rider ids, then the null sentinel. -/
def cycleListOf (riders : List Rider) (d : Nat) : List (Option Nat) :=
  (eligibleRiders riders d).map (fun r => some r.id) ++ [none]

/-- manualAssign(dateStr): replace the target day's entry with the next
entry of the cycle list, wrapping past the null sentinel; a missing key or a
stale current assignee indexes at -1, so the next entry is the first. -/
def manualAssign (riders : List Rider) (schedule : Schedule) (dateStr : Nat) : Schedule :=
  let currentId := schedule dateStr
  let cycleList := cycleListOf riders dateStr
  let currentIndex : Int :=
    match currentId with
    | none => -1
    | some v => listIndexOf v cycleList
  let nextIndex := ((currentIndex + 1) % (cycleList.length : Int)).toNat
  Schedule.set schedule dateStr (cycleList.getD nextIndex none)

/-- Worked-the-last-weekend as the specification words it: the candidate is
assigned on some day of the Friday/Saturday/Sunday triple ending at the
given Sunday, restricted to days strictly before the current day. -/
def workedSpec (sched : Schedule) (d lastSun cid : Nat) : Prop :=
  ∃ x ∈ [lastSun - 2, lastSun - 1, lastSun], x < d ∧ realAssigned sched x = some cid

instance (sched : Schedule) (d lastSun cid : Nat) :
    Decidable (workedSpec sched d lastSun cid) := by
  unfold workedSpec
  infer_instance

/-- One escapeText replacement step: String.prototype.replace(/t/g, rep),
scanning left to right without reprocessing the replacement. -/
def replaceAll (t : Char) (rep : List Char) : List Char → List Char
  | [] => []
  | c :: cs => if c = t then rep ++ replaceAll t rep cs else c :: replaceAll t rep cs

/-- escapeText: backslash, then semicolon, then comma, then newline. -/
def escapeText (l : List Char) : List Char :=
  replaceAll '\n' ['\\', 'n']
    (replaceAll ',' ['\\', ',']
      (replaceAll ';' ['\\', ';']
        (replaceAll '\\' ['\\', '\\'] l)))

/-- Decimal digits of a number, as produced by JavaScript template
interpolation / String(n).  The value itself bounds the recursion depth
(every number below 10^k has at most k digits and k ≤ n + 1). -/
def natCharsAux : Nat → Nat → List Char
  | 0, _ => []
  | fuel + 1, n =>
    if n < 10 then [Nat.digitChar n]
    else natCharsAux fuel (n / 10) ++ [Nat.digitChar (n % 10)]

def natChars (n : Nat) : List Char := natCharsAux (n + 1) n

/-- String(x).padStart(2, '0'). -/
def pad2 (n : Nat) : List Char := if n < 10 then '0' :: natChars n else natChars n

/-- formatDate: the ISO YYYY-MM-DD key (year uninterpolated, month and day
padded to two digits). -/
def formatDateChars (dt : CalDate) : List Char :=
  natChars dt.year ++ '-' :: (pad2 dt.month ++ '-' :: pad2 dt.day)

/-- YYYYMMDD: formatICalDate (the ISO string with the dashes removed) for
DTSTART, and the year/month/day template for DTEND; identical renderings. -/
def fmtICalDate (dt : CalDate) : List Char :=
  natChars dt.year ++ pad2 dt.month ++ pad2 dt.day

/-- Export input event: date (carried as the ISO string in the source),
rider id, event title and event description. -/
structure CalEvent where
  date : CalDate
  riderId : Nat
  eventName : List Char
  description : List Char
deriving DecidableEq

/-- Continuation lines of foldLine: while (remaining.length > 0) emit CRLF,
one space and up to 74 more characters.  Every iteration consumes at least
one character, so the remaining length bounds the recursion. -/
def foldChunksAux : Nat → List Char → List (List Char)
  | 0, _ => []
  | _, [] => []
  | fuel + 1, l => (' ' :: l.take 74) :: foldChunksAux fuel (l.drop 74)

/-- foldLine, as the list of physical lines it produces: a short line stays
whole; a long line becomes its first 75 characters followed by
space-prefixed chunks of up to 74. -/
def foldLine (line : List Char) : List (List Char) :=
  if line.length ≤ 75 then [line]
  else line.take 75 :: foldChunksAux (line.drop 75).length (line.drop 75)

/-- VEVENT content lines for one event, before folding. -/
def eventLines (ts : List Char) (e : CalEvent) : List (List Char) :=
  ["BEGIN:VEVENT".data,
    "DTSTART;VALUE=DATE:".data ++ fmtICalDate e.date,
    "DTEND;VALUE=DATE:".data ++ fmtICalDate (nextDay e.date),
    "DTSTAMP:".data ++ ts,
    "UID:".data ++ formatDateChars e.date ++ '-' :: (natChars e.riderId ++ "@stablescheduler".data),
    "SUMMARY:".data ++ escapeText e.eventName,
    "DESCRIPTION:".data ++ escapeText e.description,
    "STATUS:CONFIRMED".data,
    "END:VEVENT".data]

/-- generateICalContent, as the list of physical lines of the document (the
source joins them with CRLF): fixed five-line header, one folded VEVENT
block per event in input order, closing line.  ts is the DTSTAMP timestamp
captured once per call from the ambient clock and reused for every event. -/
def generateICalContent (ts : List Char) (events : List CalEvent) : List (List Char) :=
  ["BEGIN:VCALENDAR".data, "VERSION:2.0".data, "PRODID:-//Stable Scheduler//EN".data,
      "CALSCALE:GREGORIAN".data, "METHOD:PUBLISH".data]
    ++ events.flatMap (fun e => (eventLines ts e).flatMap foldLine)
    ++ ["END:VCALENDAR".data]

/-- Octet count of the UTF-8 serialization of a content line (the .ics blob
is written with charset utf-8). -/
def utf8Octets (l : List Char) : Nat := (l.map Char.utf8Size).sum

lemma daysInMonth_pos (y m : Nat) : 1 ≤ daysInMonth y m := by
  unfold daysInMonth
  repeat' split
  all_goals omega

lemma isLeapYear_iff (y : Nat) :
    isLeapYear y = true ↔ ((4 ∣ y ∧ ¬ (100 ∣ y)) ∨ 400 ∣ y) := by
  simp [isLeapYear, Bool.or_eq_true, Bool.and_eq_true, beq_iff_eq, bne_iff_ne,
    Nat.dvd_iff_mod_eq_zero]

lemma daysThroughMonth_twelve (y : Nat) :
    daysThroughMonth y 12 = 365 + (if isLeapYear y = true then 1 else 0) := by
  have h12 : daysThroughMonth y 12 =
      daysThroughMonth y 0 +
        daysInMonth y 1 + daysInMonth y 2 + daysInMonth y 3 + daysInMonth y 4 +
        daysInMonth y 5 + daysInMonth y 6 + daysInMonth y 7 + daysInMonth y 8 +
        daysInMonth y 9 + daysInMonth y 10 + daysInMonth y 11 + daysInMonth y 12 := by
    rfl
  cases h : isLeapYear y <;>
    simp only [h12, daysThroughMonth, daysInMonth, h] <;> norm_num

lemma leapCount_succ (y : Nat) :
    leapCount (y + 1) = leapCount y + (if isLeapYear (y + 1) = true then 1 else 0) := by
  have e : (isLeapYear (y + 1) = true) ↔ ((4 ∣ y + 1 ∧ ¬ (100 ∣ y + 1)) ∨ 400 ∣ y + 1) :=
    isLeapYear_iff _
  unfold leapCount
  rw [Nat.succ_div y 4, Nat.succ_div y 100, Nat.succ_div y 400]
  have hba : y / 100 ≤ y / 4 := Nat.div_le_div_left (by norm_num) (by norm_num)
  have d1 : (100 : Nat) ∣ y + 1 → 4 ∣ y + 1 := fun h => dvd_trans (by norm_num) h
  have d2 : (400 : Nat) ∣ y + 1 → 100 ∣ y + 1 := fun h => dvd_trans (by norm_num) h
  by_cases h400 : 400 ∣ y + 1
  · have h100 := d2 h400
    have h4 := d1 h100
    rw [if_pos h4, if_pos h100, if_pos h400, if_pos (e.mpr (Or.inr h400))]
    omega
  · by_cases h100 : 100 ∣ y + 1
    · have h4 := d1 h100
      have hnl : ¬ (isLeapYear (y + 1) = true) := by
        rw [e]
        rintro (⟨-, hc⟩ | hc)
        · exact hc h100
        · exact h400 hc
      rw [if_pos h4, if_pos h100, if_neg h400, if_neg hnl]
      omega
    · by_cases h4 : 4 ∣ y + 1
      · have hl : isLeapYear (y + 1) = true := e.mpr (Or.inl ⟨h4, h100⟩)
        rw [if_pos h4, if_neg h100, if_neg h400, if_pos hl]
        omega
      · have hnl : ¬ (isLeapYear (y + 1) = true) := by
          rw [e]
          rintro (⟨hc, -⟩ | hc)
          · exact h4 hc
          · exact h4 (d1 (d2 hc))
        rw [if_neg h4, if_neg h100, if_neg h400, if_neg hnl]
        omega

lemma daysBeforeYear_succ (y : Nat) (hy : 1 ≤ y) :
    daysBeforeYear (y + 1) = daysBeforeYear y + daysThroughMonth y 12 := by
  unfold daysBeforeYear
  rw [daysThroughMonth_twelve]
  have e1 : y + 1 - 1 = (y - 1) + 1 := by omega
  rw [e1, leapCount_succ]
  have e2 : y - 1 + 1 = y := by omega
  rw [e2]
  by_cases h : isLeapYear y = true
  · rw [if_pos h]
    omega
  · rw [if_neg h]
    omega

lemma validDate_nextDay (d : CalDate) (hv : validDate d) : validDate (nextDay d) := by
  obtain ⟨hy, hm1, hm2, hd1, hd2⟩ := hv
  unfold nextDay
  by_cases h1 : d.day < daysInMonth d.year d.month
  · rw [if_pos h1]
    refine ⟨hy, hm1, hm2, ?_, ?_⟩
    · show 1 ≤ d.day + 1
      omega
    · show d.day + 1 ≤ daysInMonth d.year d.month
      omega
  · rw [if_neg h1]
    by_cases h2 : d.month < 12
    · rw [if_pos h2]
      refine ⟨hy, ?_, ?_, ?_, ?_⟩
      · show 1 ≤ d.month + 1
        omega
      · show d.month + 1 ≤ 12
        omega
      · show 1 ≤ (1 : Nat)
        omega
      · show 1 ≤ daysInMonth d.year (d.month + 1)
        exact daysInMonth_pos _ _
    · rw [if_neg h2]
      refine ⟨?_, ?_, ?_, ?_, ?_⟩
      · show 1 ≤ d.year + 1
        omega
      · show 1 ≤ (1 : Nat)
        omega
      · show (1 : Nat) ≤ 12
        omega
      · show 1 ≤ (1 : Nat)
        omega
      · show 1 ≤ daysInMonth (d.year + 1) 1
        exact daysInMonth_pos _ _

lemma toSerial_nextDay (d : CalDate) (hv : validDate d) :
    toSerial (nextDay d) = toSerial d + 1 := by
  obtain ⟨hy, hm1, hm2, hd1, hd2⟩ := hv
  unfold nextDay
  by_cases h1 : d.day < daysInMonth d.year d.month
  · rw [if_pos h1]
    show daysBeforeYear d.year + daysThroughMonth d.year (d.month - 1) + (d.day + 1) = _
    unfold toSerial
    omega
  · have hde : d.day = daysInMonth d.year d.month := by omega
    rw [if_neg h1]
    by_cases h2 : d.month < 12
    · rw [if_pos h2]
      show daysBeforeYear d.year + daysThroughMonth d.year (d.month + 1 - 1) + 1 = _
      unfold toSerial
      have e1 : d.month + 1 - 1 = (d.month - 1) + 1 := by omega
      rw [e1, daysThroughMonth]
      have e2 : d.month - 1 + 1 = d.month := by omega
      rw [e2]
      omega
    · have hm12 : d.month = 12 := by omega
      rw [if_neg h2]
      show daysBeforeYear (d.year + 1) + daysThroughMonth (d.year + 1) (1 - 1) + 1 = _
      unfold toSerial
      rw [daysBeforeYear_succ d.year hy, hm12]
      have e31 : daysInMonth d.year 12 = 31 := by norm_num [daysInMonth]
      have e12 : daysThroughMonth d.year 12 =
          daysThroughMonth d.year 11 + daysInMonth d.year 12 := rfl
      have e0 : daysThroughMonth (d.year + 1) (1 - 1) = 0 := rfl
      have e11 : (12 : Nat) - 1 = 11 := rfl
      rw [e0, e12, e31, e11]
      rw [hm12] at hde
      omega

lemma generateDatesAux_length (n : Nat) (cur : CalDate) :
    (generateDatesAux n cur).length = n := by
  induction n generalizing cur with
  | zero => rfl
  | succ k ih => simp [generateDatesAux, ih]

lemma generateDatesAux_mem (n : Nat) :
    ∀ cur, validDate cur → ∀ x ∈ generateDatesAux n cur,
      validDate x ∧ toSerial cur ≤ toSerial x ∧ toSerial x < toSerial cur + n := by
  induction n with
  | zero => intro cur _ x hx; simp [generateDatesAux] at hx
  | succ k ih =>
    intro cur hcur x hx
    simp only [generateDatesAux, List.mem_cons] at hx
    rcases hx with rfl | hx
    · exact ⟨hcur, le_refl _, by omega⟩
    · obtain ⟨hvx, hl, hr⟩ := ih (nextDay cur) (validDate_nextDay cur hcur) x hx
      rw [toSerial_nextDay cur hcur] at hl hr
      exact ⟨hvx, by omega, by omega⟩

lemma generateDatesAux_chain (n : Nat) :
    ∀ cur, validDate cur →
      List.Chain' (fun a b => toSerial b = toSerial a + 1) (generateDatesAux n cur) := by
  induction n with
  | zero => intro cur _; simp [generateDatesAux]
  | succ k ih =>
    intro cur hcur
    cases k with
    | zero => simp [generateDatesAux]
    | succ j =>
      have hnext := ih (nextDay cur) (validDate_nextDay cur hcur)
      simp only [generateDatesAux] at hnext ⊢
      exact List.chain'_cons.mpr ⟨toSerial_nextDay cur hcur, hnext⟩

lemma generateDatesAux_cover (n : Nat) :
    ∀ cur, validDate cur → ∀ m, m < n →
      ∃ x ∈ generateDatesAux n cur, toSerial x = toSerial cur + m := by
  induction n with
  | zero => intro cur _ m hm; omega
  | succ k ih =>
    intro cur hcur m hm
    cases m with
    | zero => exact ⟨cur, by simp [generateDatesAux], by omega⟩
    | succ j =>
      obtain ⟨x, hx, hs⟩ := ih (nextDay cur) (validDate_nextDay cur hcur) j (by omega)
      refine ⟨x, by simp [generateDatesAux, hx], ?_⟩
      rw [hs, toSerial_nextDay cur hcur]
      omega

lemma generateDatesAux_map_serial (n : Nat) :
    ∀ cur, validDate cur →
      (generateDatesAux n cur).map toSerial = List.range' (toSerial cur) n := by
  induction n with
  | zero => intro cur _; rfl
  | succ k ih =>
    intro cur hcur
    simp only [generateDatesAux, List.map_cons, List.range'_succ]
    rw [ih (nextDay cur) (validDate_nextDay cur hcur), toSerial_nextDay cur hcur]

/-- Expansion of a valid range maps to the contiguous serial interval. -/
lemma generateDates_map_serial (s e : CalDate) (hs : validDate s) :
    (generateDates s e).map toSerial =
      List.range' (toSerial s) (toSerial e + 1 - toSerial s) :=
  generateDatesAux_map_serial _ s hs

/-- C3: for every DateRange with start ≤ end (valid start date), the expanded
day list has length equal to the inclusive day count, consecutive serial
numbers (hence strictly ascending, no duplicates, no gaps across month and
year boundaries), contains a day for every serial number between the
endpoints, is a singleton when start = end, and the concrete range
2024-02-28 .. 2024-03-01 yields exactly the three days including the leap
day. -/
theorem calendar_range_expander_correct
    (s e : CalDate) (hs : validDate s) (hle : toSerial s ≤ toSerial e) :
    (generateDates s e).length = toSerial e + 1 - toSerial s
    ∧ List.Chain' (fun a b => toSerial b = toSerial a + 1) (generateDates s e)
    ∧ List.Pairwise (fun a b => toSerial a < toSerial b) (generateDates s e)
    ∧ (generateDates s e).Nodup
    ∧ (∀ x ∈ generateDates s e, validDate x ∧ toSerial s ≤ toSerial x ∧ toSerial x ≤ toSerial e)
    ∧ (∀ m, toSerial s ≤ m → m ≤ toSerial e → ∃ x ∈ generateDates s e, toSerial x = m)
    ∧ (s = e → generateDates s e = [s])
    ∧ generateDates ⟨2024, 2, 28⟩ ⟨2024, 3, 1⟩ =
        [⟨2024, 2, 28⟩, ⟨2024, 2, 29⟩, ⟨2024, 3, 1⟩] := by
  have hchain := generateDatesAux_chain (toSerial e + 1 - toSerial s) s hs
  have hpair : List.Pairwise (fun a b => toSerial a < toSerial b) (generateDates s e) := by
    haveI : IsTrans CalDate (fun a b => toSerial a < toSerial b) :=
      ⟨fun a b c hab hbc => by omega⟩
    exact List.chain'_iff_pairwise.mp (hchain.imp (fun h => by omega))
  refine ⟨generateDatesAux_length _ _, hchain, hpair, ?_, ?_, ?_, ?_, by decide⟩
  · exact hpair.imp (fun h => by intro he; rw [he] at h; omega)
  · intro x hx
    obtain ⟨hvx, hl, hr⟩ := generateDatesAux_mem _ s hs x hx
    exact ⟨hvx, hl, by omega⟩
  · intro m hml hmr
    obtain ⟨x, hx, hsx⟩ :=
      generateDatesAux_cover (toSerial e + 1 - toSerial s) s hs (m - toSerial s) (by omega)
    exact ⟨x, hx, by omega⟩
  · intro he
    subst he
    have h1 : toSerial s + 1 - toSerial s = 1 := by omega
    unfold generateDates
    rw [h1]
    rfl

theorem calendar_range_expander_correct_witness :
    validDate ⟨2024, 2, 28⟩
    ∧ toSerial ⟨2024, 2, 28⟩ ≤ toSerial ⟨2024, 3, 1⟩
    ∧ (generateDates ⟨2024, 2, 28⟩ ⟨2024, 3, 1⟩).length =
        toSerial ⟨2024, 3, 1⟩ + 1 - toSerial ⟨2024, 2, 28⟩ :=
  ⟨by decide, by decide,
    (calendar_range_expander_correct ⟨2024, 2, 28⟩ ⟨2024, 3, 1⟩ (by decide) (by decide)).1⟩

/- ===== Assignment engine =====
   Days are serial day numbers (toSerial images); the schedule object keyed
   by ISO YYYY-MM-DD strings is modelled as a function from serial day to
   Option (Option Nat): none = key absent (day not processed), some none =
   explicit null (unassigned), some (some i) = rider id i.  Date arithmetic
   on serials: yesterday = d - 1, tomorrow = d + 1, previous Saturday =
   d - 7, getDay() = d % 7 (0 = Sunday, 6 = Saturday). -/

lemma sortedInsert_perm (le : Rider → Rider → Bool) (a : Rider) (l : List Rider) :
    (sortedInsert le a l).Perm (a :: l) := by
  induction l with
  | nil => simp [sortedInsert]
  | cons b bs ih =>
    simp only [sortedInsert]
    by_cases h : le a b = true
    · rw [if_pos h]
    · rw [if_neg h]
      exact ((ih.cons b).trans (List.Perm.swap a b bs))

lemma sortLe_perm (le : Rider → Rider → Bool) (l : List Rider) :
    (sortLe le l).Perm l := by
  induction l with
  | nil => simp [sortLe]
  | cons a as ih =>
    simp only [sortLe]
    exact (sortedInsert_perm le a (sortLe le as)).trans (ih.cons a)

lemma sortedInsert_pairwise (le : Rider → Rider → Bool)
    (htot : ∀ a b, le a b = true ∨ le b a = true)
    (htrans : ∀ a b c, le a b = true → le b c = true → le a c = true)
    (a : Rider) (l : List Rider) (hl : l.Pairwise (fun x y => le x y = true)) :
    (sortedInsert le a l).Pairwise (fun x y => le x y = true) := by
  induction l with
  | nil => simp [sortedInsert]
  | cons b bs ih =>
    rcases List.pairwise_cons.mp hl with ⟨hb, hbs⟩
    simp only [sortedInsert]
    by_cases h : le a b = true
    · rw [if_pos h]
      refine List.pairwise_cons.mpr ⟨?_, hl⟩
      intro x hx
      rcases List.mem_cons.mp hx with rfl | hx
      · exact h
      · exact htrans a b x h (hb x hx)
    · rw [if_neg h]
      have hba : le b a = true := (htot a b).resolve_left h
      refine List.pairwise_cons.mpr ⟨?_, ih hbs⟩
      intro x hx
      have hx' : x ∈ a :: bs := (sortedInsert_perm le a bs).mem_iff.mp hx
      rcases List.mem_cons.mp hx' with rfl | hx'
      · exact hba
      · exact hb x hx'

lemma sortLe_pairwise (le : Rider → Rider → Bool)
    (htot : ∀ a b, le a b = true ∨ le b a = true)
    (htrans : ∀ a b c, le a b = true → le b c = true → le a c = true)
    (l : List Rider) :
    (sortLe le l).Pairwise (fun x y => le x y = true) := by
  induction l with
  | nil => simp [sortLe]
  | cons a as ih => exact sortedInsert_pairwise le htot htrans a (sortLe le as) ih

/-- Head of the sorted list is le-minimal among the input elements. -/
lemma sortLe_head_min (le : Rider → Rider → Bool)
    (htot : ∀ a b, le a b = true ∨ le b a = true)
    (htrans : ∀ a b c, le a b = true → le b c = true → le a c = true)
    (l : List Rider) (c : Rider) (rest : List Rider)
    (h : sortLe le l = c :: rest) :
    ∀ r ∈ l, le c r = true := by
  intro r hr
  have hr' : r ∈ c :: rest := h ▸ (sortLe_perm le l).mem_iff.mpr hr
  rcases List.mem_cons.mp hr' with rfl | hr'
  · exact (htot r r).elim id id
  · have hp := sortLe_pairwise le htot htrans l
    rw [h] at hp
    exact (List.pairwise_cons.mp hp).1 r hr'

lemma leSat_total (stats : Nat → RStats) (a b : Rider) :
    leSat stats a b = true ∨ leSat stats b a = true := by
  unfold leSat
  rcases Nat.lt_trichotomy (stats a.id).saturdays (stats b.id).saturdays with h | h | h
  · left; exact decide_eq_true (Or.inl h)
  · rcases Nat.le_total (stats a.id).total (stats b.id).total with ht | ht
    · left; exact decide_eq_true (Or.inr ⟨h, ht⟩)
    · right; exact decide_eq_true (Or.inr ⟨h.symm, ht⟩)
  · right; exact decide_eq_true (Or.inl h)

lemma leSat_trans (stats : Nat → RStats) (a b c : Rider)
    (hab : leSat stats a b = true) (hbc : leSat stats b c = true) :
    leSat stats a c = true := by
  unfold leSat at *
  have h1 := of_decide_eq_true hab
  have h2 := of_decide_eq_true hbc
  apply decide_eq_true
  omega

lemma leTotal_total (stats : Nat → RStats) (a b : Rider) :
    leTotal stats a b = true ∨ leTotal stats b a = true := by
  unfold leTotal
  rcases Nat.le_total (stats a.id).total (stats b.id).total with h | h
  · left; exact decide_eq_true h
  · right; exact decide_eq_true h

lemma leTotal_trans (stats : Nat → RStats) (a b c : Rider)
    (hab : leTotal stats a b = true) (hbc : leTotal stats b c = true) :
    leTotal stats a c = true := by
  unfold leTotal at *
  have h1 := of_decide_eq_true hab
  have h2 := of_decide_eq_true hbc
  exact decide_eq_true (le_trans h1 h2)

lemma Schedule.set_self (s : Schedule) (d : Nat) (v : Option Nat) :
    (Schedule.set s d v) d = some v := by
  simp [Schedule.set]

lemma Schedule.set_ne (s : Schedule) (d : Nat) (v : Option Nat) (y : Nat) (h : y ≠ d) :
    (Schedule.set s d v) y = s y := by
  simp [Schedule.set, h]

lemma pass1Day_sched_ne (riders : List Rider) (sh : Nat → List Rider → List Rider)
    (st : GenState) (d y : Nat) (h : y ≠ d) :
    (pass1Day riders sh st d).sched y = st.sched y := by
  unfold pass1Day
  cases pass1Choice riders sh st d <;> simp [Schedule.set_ne _ _ _ _ h]

lemma pass2Day_sched_ne (riders : List Rider) (sh : Nat → List Rider → List Rider)
    (st : GenState) (d y : Nat) (h : y ≠ d) :
    (pass2Day riders sh st d).sched y = st.sched y := by
  unfold pass2Day
  cases pass2Choice riders sh st d <;> simp [Schedule.set_ne _ _ _ _ h]

lemma pass1_sched_notmem (riders : List Rider) (sh : Nat → List Rider → List Rider)
    (l : List Nat) :
    ∀ st y, y ∉ l → (pass1 riders sh st l).sched y = st.sched y := by
  induction l with
  | nil => intro st y _; rfl
  | cons a t ih =>
    intro st y hy
    simp only [List.mem_cons, not_or] at hy
    show (pass1 riders sh (pass1Day riders sh st a) t).sched y = _
    rw [ih _ y hy.2, pass1Day_sched_ne riders sh st a y hy.1]

lemma pass2_sched_notmem (riders : List Rider) (sh : Nat → List Rider → List Rider)
    (l : List Nat) :
    ∀ st y, y ∉ l → (pass2 riders sh st l).sched y = st.sched y := by
  induction l with
  | nil => intro st y _; rfl
  | cons a t ih =>
    intro st y hy
    simp only [List.mem_cons, not_or] at hy
    show (pass2 riders sh (pass2Day riders sh st a) t).sched y = _
    rw [ih _ y hy.2, pass2Day_sched_ne riders sh st a y hy.1]

lemma pass2Day_stats_saturdays (riders : List Rider) (sh : Nat → List Rider → List Rider)
    (st : GenState) (d i : Nat) :
    ((pass2Day riders sh st d).stats i).saturdays = (st.stats i).saturdays := by
  unfold pass2Day
  cases pass2Choice riders sh st d with
  | none => rfl
  | some c =>
    show (bumpTotal st.stats c.id i).saturdays = _
    unfold bumpTotal
    by_cases h : i = c.id
    · rw [if_pos h]
    · rw [if_neg h]

lemma pass2_stats_saturdays (riders : List Rider) (sh : Nat → List Rider → List Rider)
    (l : List Nat) :
    ∀ st i, ((pass2 riders sh st l).stats i).saturdays = (st.stats i).saturdays := by
  induction l with
  | nil => intro st i; rfl
  | cons a t ih =>
    intro st i
    show ((pass2 riders sh (pass2Day riders sh st a) t).stats i).saturdays = _
    rw [ih _ i, pass2Day_stats_saturdays]

lemma pass2_append (riders : List Rider) (sh : Nat → List Rider → List Rider)
    (st : GenState) (l1 l2 : List Nat) :
    pass2 riders sh st (l1 ++ l2) = pass2 riders sh (pass2 riders sh st l1) l2 := by
  simp [pass2, List.foldl_append]

/-- Splitting a strictly ascending list at a member. -/
lemma sorted_split (l : List Nat) (x : Nat) (hs : l.Pairwise (· < ·)) (hx : x ∈ l) :
    l = (l.filter fun d => decide (d < x)) ++ x :: (l.filter fun d => decide (x < d)) := by
  induction l with
  | nil => cases hx
  | cons a t ih =>
    rcases List.pairwise_cons.mp hs with ⟨ha, ht⟩
    rcases List.mem_cons.mp hx with rfl | hx
    · have h1 : (x :: t).filter (fun d => decide (d < x)) = [] := by
        rw [List.filter_eq_nil_iff]
        intro e he
        rcases List.mem_cons.mp he with rfl | he
        · simp
        · simp only [decide_eq_true_eq]
          exact fun hc => absurd (ha e he) (by omega)
      have h2 : (x :: t).filter (fun d => decide (x < d)) = t := by
        rw [List.filter_cons_of_neg (by simp)]
        rw [List.filter_eq_self]
        intro e he
        exact decide_eq_true (ha e he)
      rw [h1, h2]
      rfl
    · have hax : a < x := ha x hx
      have h1 : (a :: t).filter (fun d => decide (d < x)) =
          a :: t.filter (fun d => decide (d < x)) :=
        List.filter_cons_of_pos (decide_eq_true hax)
      have h2 : (a :: t).filter (fun d => decide (x < d)) =
          t.filter (fun d => decide (x < d)) :=
        List.filter_cons_of_neg (by simp; omega)
      rw [h1, h2]
      show a :: t = a :: (t.filter _ ++ x :: t.filter _)
      rw [← ih ht hx]

lemma weekendFiltered_subset (sched : Schedule) (d : Nat) (cands : List Rider) (r : Rider)
    (h : r ∈ weekendFiltered sched d cands) : r ∈ cands := by
  simp only [weekendFiltered] at h
  split at h
  · split at h
    · exact h
    · exact (List.mem_filter.mp h).1
  · exact h

lemma adjacencyFiltered_excl_tomorrow (riders : List Rider) (sched : Schedule) (d : Nat)
    (r : Rider) (h : r ∈ adjacencyFiltered riders sched d) :
    realAssigned sched (d + 1) ≠ some r.id := by
  simp only [adjacencyFiltered] at h
  split at h
  · exact of_decide_eq_true (List.mem_filter.mp h).2
  · exact (of_decide_eq_true (List.mem_filter.mp h).2).2

lemma adjacencyFiltered_excl_yesterday (riders : List Rider) (sched : Schedule) (d : Nat)
    (r : Rider)
    (hne : ¬ ((eligibleRiders riders d).filter fun r =>
        decide (realAssigned sched (d - 1) ≠ some r.id ∧
          realAssigned sched (d + 1) ≠ some r.id)).isEmpty = true)
    (h : r ∈ adjacencyFiltered riders sched d) :
    realAssigned sched (d - 1) ≠ some r.id := by
  simp only [adjacencyFiltered] at h
  rw [if_neg hne] at h
  exact (of_decide_eq_true (List.mem_filter.mp h).2).1

lemma pass2Choice_mem (riders : List Rider) (sh : Nat → List Rider → List Rider)
    (st : GenState) (d : Nat) (c : Rider)
    (Hperm : ∀ k l, (sh k l).Perm l)
    (h : pass2Choice riders sh st d = some c) :
    c ∈ pass2Cands riders st d := by
  simp only [pass2Choice] at h
  split at h
  · cases h
  · cases hs : sortLe (leTotal st.stats) (sh d (pass2Cands riders st d)) with
    | nil => rw [hs] at h; cases h
    | cons c0 rest =>
      rw [hs] at h
      cases h
      have hmem : c ∈ sortLe (leTotal st.stats) (sh d (pass2Cands riders st d)) := by
        rw [hs]; exact List.mem_cons_self _ _
      exact (Hperm d _).mem_iff.mp ((sortLe_perm _ _).mem_iff.mp hmem)

lemma pass1Choice_mem (riders : List Rider) (sh : Nat → List Rider → List Rider)
    (st : GenState) (d : Nat) (c : Rider)
    (Hperm : ∀ k l, (sh k l).Perm l)
    (h : pass1Choice riders sh st d = some c) :
    c ∈ pass1Cands riders st d := by
  simp only [pass1Choice] at h
  split at h
  · cases h
  · cases hs : sortLe (leSat st.stats) (sh d (pass1Cands riders st d)) with
    | nil => rw [hs] at h; cases h
    | cons c0 rest =>
      rw [hs] at h
      cases h
      have hmem : c ∈ sortLe (leSat st.stats) (sh d (pass1Cands riders st d)) := by
        rw [hs]; exact List.mem_cons_self _ _
      exact (Hperm d _).mem_iff.mp ((sortLe_perm _ _).mem_iff.mp hmem)

lemma pass1Choice_min (riders : List Rider) (sh : Nat → List Rider → List Rider)
    (st : GenState) (d : Nat) (c : Rider)
    (Hperm : ∀ k l, (sh k l).Perm l)
    (h : pass1Choice riders sh st d = some c) :
    ∀ r ∈ pass1Cands riders st d, leSat st.stats c r = true := by
  intro r hr
  simp only [pass1Choice] at h
  split at h
  · cases h
  · cases hs : sortLe (leSat st.stats) (sh d (pass1Cands riders st d)) with
    | nil => rw [hs] at h; cases h
    | cons c0 rest =>
      rw [hs] at h
      cases h
      have hr' : r ∈ sh d (pass1Cands riders st d) := (Hperm d _).mem_iff.mpr hr
      exact sortLe_head_min (leSat st.stats) (leSat_total st.stats) (leSat_trans st.stats)
        _ c rest hs r hr'

lemma pass2Day_assigned (riders : List Rider) (sh : Nat → List Rider → List Rider)
    (st : GenState) (d : Nat) (i : Nat)
    (h : realAssigned (pass2Day riders sh st d).sched d = some i) :
    ∃ c, pass2Choice riders sh st d = some c ∧ c.id = i := by
  unfold pass2Day at h
  cases hc : pass2Choice riders sh st d with
  | none =>
    rw [hc] at h
    simp [realAssigned, Schedule.set_self] at h
  | some c =>
    rw [hc] at h
    simp only [realAssigned, Schedule.set_self] at h
    exact ⟨c, rfl, by injection h⟩

lemma pass1Day_assigned (riders : List Rider) (sh : Nat → List Rider → List Rider)
    (st : GenState) (d : Nat) (i : Nat)
    (h : realAssigned (pass1Day riders sh st d).sched d = some i) :
    ∃ c, pass1Choice riders sh st d = some c ∧ c.id = i := by
  unfold pass1Day at h
  cases hc : pass1Choice riders sh st d with
  | none =>
    rw [hc] at h
    simp [realAssigned, Schedule.set_self] at h
  | some c =>
    rw [hc] at h
    simp only [realAssigned, Schedule.set_self] at h
    exact ⟨c, rfl, by injection h⟩

lemma notSat_of_mem_fill (days : List Nat) (x : Nat)
    (h : x ∈ days.filter fun y => !isSaturdayS y) : isSaturdayS x = false := by
  have h2 := (List.mem_filter.mp h).2
  simpa using h2

lemma not_mem_filter_gt (l : List Nat) (x y : Nat) (hyx : y ≤ x) :
    y ∉ l.filter fun z => decide (x < z) := by
  intro h
  have h2 := of_decide_eq_true (List.mem_filter.mp h).2
  omega

lemma pass2_cons (riders : List Rider) (sh : Nat → List Rider → List Rider)
    (st : GenState) (a : Nat) (t : List Nat) :
    pass2 riders sh st (a :: t) = pass2 riders sh (pass2Day riders sh st a) t := rfl

lemma realAssigned_congr (s1 s2 : Schedule) (d : Nat) (h : s1 d = s2 d) :
    realAssigned s1 d = realAssigned s2 d := by
  unfold realAssigned
  rw [h]

/-- Decomposition of a generation run around one fill-pass day x: the run is
the state just before x, then the step at x, then the later fill days. -/
lemma generateSchedule_split_at (riders : List Rider) (sh : Nat → List Rider → List Rider)
    (s n x : Nat)
    (hx : x ∈ (List.range' s n).filter fun y => !isSaturdayS y) :
    generateSchedule riders sh (List.range' s n) =
      pass2 riders sh
        (pass2Day riders sh (fillStateBefore riders sh (List.range' s n) x) x)
        (((List.range' s n).filter fun y => !isSaturdayS y).filter fun y => decide (x < y)) := by
  have hsplit := sorted_split _ x ((List.pairwise_lt_range' s n).filter _) hx
  unfold generateSchedule fillStateBefore
  conv_lhs => rw [hsplit]
  rw [pass2_append, pass2_cons]

lemma fillStateBefore_sched_notmem (riders : List Rider) (sh : Nat → List Rider → List Rider)
    (s n x y : Nat)
    (hy : y ∉ ((List.range' s n).filter fun z => !isSaturdayS z).filter fun z => decide (z < x)) :
    (fillStateBefore riders sh (List.range' s n) x).sched y =
      (pass1 riders sh initState ((List.range' s n).filter fun z => isSaturdayS z)).sched y :=
  pass2_sched_notmem _ _ _ _ _ hy

/-- C1: for every generated schedule over a contiguous day range, whenever
two consecutive days are both assigned to a real rider, the assignees can
coincide only if the later day is a fill-pass day whose eligible pool was
emptied by the combined preceding-day and following-day exclusions; in that
case the relaxation re-admitted the preceding-day rider (who is the shared
assignee) while still excluding the rider then scheduled on the following
day. -/
theorem hard_adjacency_with_relaxation
    (riders : List Rider) (sh : Nat → List Rider → List Rider) (s n d i j : Nat)
    (Hperm : ∀ k l, (sh k l).Perm l)
    (hd : d ∈ List.range' s n) (hd1 : d + 1 ∈ List.range' s n)
    (hi : realAssigned (generateSchedule riders sh (List.range' s n)).sched d = some i)
    (hj : realAssigned (generateSchedule riders sh (List.range' s n)).sched (d + 1) = some j)
    (hij : i = j) :
    isSaturdayS (d + 1) = false ∧
    ((eligibleRiders riders (d + 1)).filter fun r =>
        decide (realAssigned (fillStateBefore riders sh (List.range' s n) (d + 1)).sched d ≠ some r.id ∧
          realAssigned (fillStateBefore riders sh (List.range' s n) (d + 1)).sched (d + 2) ≠ some r.id)).isEmpty
      = true ∧
    realAssigned (fillStateBefore riders sh (List.range' s n) (d + 1)).sched d = some i ∧
    realAssigned (fillStateBefore riders sh (List.range' s n) (d + 1)).sched (d + 2) ≠ some j := by
  by_cases hS1 : isSaturdayS (d + 1) = true
  · -- the later day is a Saturday: its assignment predates the fill step at d,
    -- which always excludes it; contradiction with equal assignees.
    exfalso
    have h71 : (d + 1) % 7 = 6 := by
      simpa only [isSaturdayS, beq_iff_eq] using hS1
    have hdS : isSaturdayS d = false := by
      simp only [isSaturdayS, beq_eq_false_iff_ne]
      omega
    have hdP2 : d ∈ (List.range' s n).filter fun y => !isSaturdayS y :=
      List.mem_filter.mpr ⟨hd, by rw [hdS]; rfl⟩
    have hd1P2 : (d + 1) ∉ (List.range' s n).filter fun y => !isSaturdayS y := by
      intro hmem
      have hf := notSat_of_mem_fill _ _ hmem
      rw [hS1] at hf
      exact Bool.noConfusion hf
    rw [generateSchedule_split_at riders sh s n d hdP2] at hi hj
    have hdnB : d ∉ ((List.range' s n).filter fun y => !isSaturdayS y).filter
        fun y => decide (d < y) := not_mem_filter_gt _ _ _ (le_refl d)
    have hd1nB : (d + 1) ∉ ((List.range' s n).filter fun y => !isSaturdayS y).filter
        fun y => decide (d < y) := by
      intro hmem
      exact hd1P2 (List.mem_filter.mp hmem).1
    rw [realAssigned_congr _ _ _ (pass2_sched_notmem _ _ _ _ _ hdnB)] at hi
    rw [realAssigned_congr _ _ _ (pass2_sched_notmem _ _ _ _ _ hd1nB)] at hj
    rw [realAssigned_congr _ _ _
      (pass2Day_sched_ne riders sh _ d (d + 1) (by omega))] at hj
    obtain ⟨c, hcchoice, hcid⟩ := pass2Day_assigned riders sh _ d i hi
    have hcmem := pass2Choice_mem riders sh _ d c Hperm hcchoice
    have hcadj := weekendFiltered_subset _ _ _ c hcmem
    have hexcl := adjacencyFiltered_excl_tomorrow riders _ d c hcadj
    rw [hcid] at hexcl
    rw [hij] at hexcl
    exact hexcl hj
  · -- the later day is a fill-pass day: at its own step the previous day
    -- already holds its final assignment, so equality forces the relaxed
    -- branch (empty both-sides pool).
    have hS1f : isSaturdayS (d + 1) = false := by
      cases hb : isSaturdayS (d + 1)
      · rfl
      · exact absurd hb hS1
    have hd1P2 : (d + 1) ∈ (List.range' s n).filter fun y => !isSaturdayS y :=
      List.mem_filter.mpr ⟨hd1, by rw [hS1f]; rfl⟩
    rw [generateSchedule_split_at riders sh s n (d + 1) hd1P2] at hi hj
    have hd1nB : (d + 1) ∉ ((List.range' s n).filter fun y => !isSaturdayS y).filter
        fun y => decide (d + 1 < y) := not_mem_filter_gt _ _ _ (le_refl (d + 1))
    have hdnB : d ∉ ((List.range' s n).filter fun y => !isSaturdayS y).filter
        fun y => decide (d + 1 < y) := not_mem_filter_gt _ _ _ (by omega)
    rw [realAssigned_congr _ _ _ (pass2_sched_notmem _ _ _ _ _ hd1nB)] at hj
    rw [realAssigned_congr _ _ _ (pass2_sched_notmem _ _ _ _ _ hdnB)] at hi
    rw [realAssigned_congr _ _ _
      (pass2Day_sched_ne riders sh _ (d + 1) d (by omega))] at hi
    obtain ⟨c, hcchoice, hcid⟩ := pass2Day_assigned riders sh _ (d + 1) j hj
    have hcmem := pass2Choice_mem riders sh _ (d + 1) c Hperm hcchoice
    have hcadj := weekendFiltered_subset _ _ _ c hcmem
    have hexcl := adjacencyFiltered_excl_tomorrow riders _ (d + 1) c hcadj
    rw [hcid] at hexcl
    by_cases hne : ((eligibleRiders riders (d + 1)).filter fun r =>
        decide (realAssigned (fillStateBefore riders sh (List.range' s n) (d + 1)).sched (d + 1 - 1) ≠ some r.id ∧
          realAssigned (fillStateBefore riders sh (List.range' s n) (d + 1)).sched (d + 1 + 1) ≠ some r.id)).isEmpty = true
    · exact ⟨hS1f, hne, hi, hexcl⟩
    · exfalso
      have hy := adjacencyFiltered_excl_yesterday riders _ (d + 1) c hne hcadj
      rw [hcid] at hy
      have hi' : realAssigned (fillStateBefore riders sh (List.range' s n) (d + 1)).sched (d + 1 - 1)
          = some i := hi
      rw [hij] at hi'
      exact hy hi'

theorem hard_adjacency_with_relaxation_witness :
    (8 ∈ List.range' 8 2
      ∧ 8 + 1 ∈ List.range' 8 2
      ∧ realAssigned (generateSchedule [⟨1, []⟩] shId (List.range' 8 2)).sched 8 = some 1
      ∧ realAssigned (generateSchedule [⟨1, []⟩] shId (List.range' 8 2)).sched (8 + 1) = some 1)
    ∧ (isSaturdayS (8 + 1) = false ∧
      ((eligibleRiders [⟨1, []⟩] (8 + 1)).filter fun r =>
          decide (realAssigned (fillStateBefore [⟨1, []⟩] shId (List.range' 8 2) (8 + 1)).sched 8 ≠ some r.id ∧
            realAssigned (fillStateBefore [⟨1, []⟩] shId (List.range' 8 2) (8 + 1)).sched (8 + 2) ≠ some r.id)).isEmpty
        = true ∧
      realAssigned (fillStateBefore [⟨1, []⟩] shId (List.range' 8 2) (8 + 1)).sched 8 = some 1 ∧
      realAssigned (fillStateBefore [⟨1, []⟩] shId (List.range' 8 2) (8 + 1)).sched (8 + 2) ≠ some 1) :=
  ⟨⟨by decide, by decide, by decide, by decide⟩,
    hard_adjacency_with_relaxation [⟨1, []⟩] shId 8 2 8 1 1 (fun _ l => List.Perm.refl l)
      (by decide) (by decide) (by decide) (by decide) rfl⟩

lemma pass1Cands_subset (riders : List Rider) (st : GenState) (d : Nat) (r : Rider)
    (h : r ∈ pass1Cands riders st d) : r ∈ riders := by
  simp only [pass1Cands] at h
  split at h
  · exact (List.mem_filter.mp h).1
  · exact (List.mem_filter.mp ((List.mem_filter.mp h).1)).1

lemma countP_le_countP_add (l : List Rider) (p q e : Rider → Bool)
    (h : ∀ r ∈ l, p r = true → q r = true ∨ e r = true) :
    l.countP p ≤ l.countP q + l.countP e := by
  induction l with
  | nil => simp
  | cons a t ih =>
    rw [List.countP_cons, List.countP_cons, List.countP_cons]
    have ht := ih fun r hr => h r (List.mem_cons_of_mem a hr)
    by_cases hp : p a = true
    · rcases h a (List.mem_cons_self a t) hp with hq | he
      · rw [hp, hq]
        by_cases he2 : e a = true <;> simp [he2] <;> omega
      · rw [hp, he]
        by_cases hq2 : q a = true <;> simp [hq2] <;> omega
    · rw [Bool.not_eq_true] at hp
      rw [hp]
      by_cases hq2 : q a = true <;> by_cases he2 : e a = true <;>
        simp [hq2, he2] <;> omega

lemma countP_id_le_one (l : List Rider) (i : Nat) (h : (l.map Rider.id).Nodup) :
    l.countP (fun r => decide (r.id = i)) ≤ 1 := by
  induction l with
  | nil => simp
  | cons a t ih =>
    simp only [List.map_cons, List.nodup_cons] at h
    by_cases ha : a.id = i
    · have ht0 : t.countP (fun r => decide (r.id = i)) = 0 := by
        rw [List.countP_eq_zero]
        intro r hr
        simp only [decide_eq_true_eq]
        intro he
        exact h.1 (by rw [ha, ← he]; exact List.mem_map_of_mem _ hr)
      rw [List.countP_cons]
      simp [ha, ht0]
    · rw [List.countP_cons]
      have ht := ih h.2
      simp [ha]
      omega

/-- On an all-candidates-available anchor day with at least one zero-counter
rider, the anchor pass picks a roster member whose saturdays counter is
still zero. -/
lemma pass1Choice_step (riders : List Rider) (sh : Nat → List Rider → List Rider)
    (st : GenState) (d : Nat)
    (Hperm : ∀ k l, (sh k l).Perm l)
    (hb : ∀ r ∈ riders, r.blockedDates.contains d = false)
    (hinv : P1Inv riders st)
    (hZ : 0 < riders.countP fun r => decide ((st.stats r.id).saturdays = 0)) :
    ∃ c, pass1Choice riders sh st d = some c ∧ c ∈ riders ∧
      (st.stats c.id).saturdays = 0 := by
  have helig : eligibleRiders riders d = riders := by
    unfold eligibleRiders
    rw [List.filter_eq_self]
    intro r hr
    rw [hb r hr]
    rfl
  obtain ⟨r0, hr0mem, hr0p⟩ := List.countP_pos_iff.mp hZ
  have hr00 : (st.stats r0.id).saturdays = 0 := of_decide_eq_true hr0p
  have hr0soft : r0 ∈ (eligibleRiders riders d).filter
      fun r => decide (realAssigned st.sched (d - 7) ≠ some r.id) := by
    rw [helig]
    refine List.mem_filter.mpr ⟨hr0mem, decide_eq_true ?_⟩
    intro hc
    have h1 := (hinv.2 (d - 7) r0.id hc).2
    omega
  have hr0cands : r0 ∈ pass1Cands riders st d := by
    simp only [pass1Cands]
    rw [if_neg ?_]
    · exact hr0soft
    · intro hemp
      rw [List.isEmpty_iff] at hemp
      rw [hemp] at hr0soft
      cases hr0soft
  have hcne : ¬ (pass1Cands riders st d).isEmpty = true := by
    intro hemp
    rw [List.isEmpty_iff] at hemp
    rw [hemp] at hr0cands
    cases hr0cands
  cases hs : sortLe (leSat st.stats) (sh d (pass1Cands riders st d)) with
  | nil =>
    exfalso
    have hmem : r0 ∈ sortLe (leSat st.stats) (sh d (pass1Cands riders st d)) :=
      (sortLe_perm _ _).mem_iff.mpr ((Hperm d _).mem_iff.mpr hr0cands)
    rw [hs] at hmem
    cases hmem
  | cons c rest =>
    have hchoice : pass1Choice riders sh st d = some c := by
      simp only [pass1Choice]
      rw [if_neg hcne, hs]
    have hcmem := pass1Choice_mem riders sh st d c Hperm hchoice
    have hcmin := pass1Choice_min riders sh st d c Hperm hchoice r0 hr0cands
    have hc0 : (st.stats c.id).saturdays = 0 := by
      have := of_decide_eq_true hcmin
      rcases this with hlt | ⟨heq, -⟩
      · omega
      · omega
    exact ⟨c, hchoice, pass1Cands_subset riders st d c hcmem, hc0⟩

/-- One anchor-pass step preserves the invariant and decreases the number of
zero-counter riders by at most one. -/
lemma pass1Day_inv (riders : List Rider) (sh : Nat → List Rider → List Rider)
    (st : GenState) (d : Nat)
    (Hperm : ∀ k l, (sh k l).Perm l)
    (hnodup : (riders.map Rider.id).Nodup)
    (hb : ∀ r ∈ riders, r.blockedDates.contains d = false)
    (hinv : P1Inv riders st)
    (hZ : 0 < riders.countP fun r => decide ((st.stats r.id).saturdays = 0)) :
    P1Inv riders (pass1Day riders sh st d) ∧
      riders.countP (fun r => decide ((st.stats r.id).saturdays = 0)) ≤
        riders.countP (fun r => decide (((pass1Day riders sh st d).stats r.id).saturdays = 0))
          + 1 := by
  obtain ⟨c, hch, hcr, hc0⟩ := pass1Choice_step riders sh st d Hperm hb hinv hZ
  unfold pass1Day
  rw [hch]
  refine ⟨⟨?_, ?_⟩, ?_⟩
  · intro w
    show (bumpBoth st.stats c.id w).saturdays ≤ 1
    unfold bumpBoth
    by_cases hw : w = c.id
    · rw [if_pos hw, hw]
      show (st.stats c.id).saturdays + 1 ≤ 1
      omega
    · rw [if_neg hw]
      exact hinv.1 w
  · intro x w hx
    by_cases hxd : x = d
    · subst hxd
      have hval : realAssigned (Schedule.set st.sched x (some c.id)) x = some c.id := by
        unfold realAssigned
        rw [Schedule.set_self]
      show (∃ r ∈ riders, r.id = w) ∧ (bumpBoth st.stats c.id w).saturdays = 1
      rw [hval] at hx
      injection hx with hx
      subst hx
      refine ⟨⟨c, hcr, rfl⟩, ?_⟩
      unfold bumpBoth
      rw [if_pos rfl]
      show (st.stats c.id).saturdays + 1 = 1
      omega
    · have hval : realAssigned (Schedule.set st.sched d (some c.id)) x =
          realAssigned st.sched x :=
        realAssigned_congr _ _ _ (Schedule.set_ne _ _ _ _ hxd)
      rw [hval] at hx
      obtain ⟨hex, h1⟩ := hinv.2 x w hx
      have hwc : w ≠ c.id := by
        intro he
        rw [he] at h1
        omega
      refine ⟨hex, ?_⟩
      show (bumpBoth st.stats c.id w).saturdays = 1
      unfold bumpBoth
      rw [if_neg hwc]
      exact h1
  · have hstep : ∀ r ∈ riders, (fun r => decide ((st.stats r.id).saturdays = 0)) r = true →
        (fun r => decide (((bumpBoth st.stats c.id) r.id).saturdays = 0)) r = true ∨
        (fun r => decide (r.id = c.id)) r = true := by
      intro r _ hp
      by_cases hrc : r.id = c.id
      · right
        exact decide_eq_true hrc
      · left
        have h0 := of_decide_eq_true hp
        apply decide_eq_true
        show (bumpBoth st.stats c.id r.id).saturdays = 0
        unfold bumpBoth
        rw [if_neg hrc]
        exact h0
    have hle := countP_le_countP_add riders _ _ _ hstep
    have hone := countP_id_le_one riders c.id hnodup
    show riders.countP _ ≤ riders.countP (fun r => decide (((bumpBoth st.stats c.id) r.id).saturdays = 0)) + 1
    omega

/-- Invariant holds after the whole anchor pass, provided the roster is at
least as large as the number of anchor days and nobody is blocked on one. -/
lemma pass1_inv (riders : List Rider) (sh : Nat → List Rider → List Rider)
    (Hperm : ∀ k l, (sh k l).Perm l)
    (hnodup : (riders.map Rider.id).Nodup) :
    ∀ (l : List Nat) (st : GenState), P1Inv riders st →
      l.length ≤ riders.countP (fun r => decide ((st.stats r.id).saturdays = 0)) →
      (∀ d ∈ l, ∀ r ∈ riders, r.blockedDates.contains d = false) →
      P1Inv riders (pass1 riders sh st l) := by
  intro l
  induction l with
  | nil => intro st hinv _ _; exact hinv
  | cons d t ih =>
    intro st hinv hlen hb
    have hZ : 0 < riders.countP fun r => decide ((st.stats r.id).saturdays = 0) := by
      have := hlen
      simp only [List.length_cons] at this
      omega
    obtain ⟨hinv', hcnt⟩ := pass1Day_inv riders sh st d Hperm hnodup
      (fun r hr => hb d (List.mem_cons_self d t) r hr) hinv hZ
    show P1Inv riders (pass1 riders sh (pass1Day riders sh st d) t)
    apply ih _ hinv'
    · simp only [List.length_cons] at hlen
      omega
    · intro x hx r hr
      exact hb x (List.mem_cons_of_mem d hx) r hr

/-- C2: after a full generation run in which the roster is at least as large
as the number of Saturdays in the range and no roster member has a Saturday
of the range among their blocked dates (and rider ids are distinct), the
final saturdays counters of any two riders differ by at most 1. -/
theorem anchor_fairness
    (riders : List Rider) (sh : Nat → List Rider → List Rider) (days : List Nat)
    (Hperm : ∀ k l, (sh k l).Perm l)
    (hnodup : (riders.map Rider.id).Nodup)
    (hN : (days.filter fun d => isSaturdayS d).length ≤ riders.length)
    (hblock : ∀ d ∈ days.filter fun x => isSaturdayS x, ∀ r ∈ riders,
      r.blockedDates.contains d = false)
    (r1 : Rider) (hr1 : r1 ∈ riders) (r2 : Rider) (hr2 : r2 ∈ riders) :
    ((generateSchedule riders sh days).stats r1.id).saturdays ≤
      ((generateSchedule riders sh days).stats r2.id).saturdays + 1 := by
  have hinv0 : P1Inv riders initState := by
    constructor
    · intro w
      show (0 : Nat) ≤ 1
      omega
    · intro x w hx
      show (∃ r ∈ riders, r.id = w) ∧ _
      exact absurd hx (by unfold realAssigned initState; simp)
  have hcount0 : (riders.countP fun r => decide ((initState.stats r.id).saturdays = 0))
      = riders.length := by
    rw [List.countP_eq_length]
    intro r _
    apply decide_eq_true
    rfl
  have hinv1 := pass1_inv riders sh Hperm hnodup (days.filter fun d => isSaturdayS d)
    initState hinv0 (by rw [hcount0]; exact hN) hblock
  have hs1 : ((generateSchedule riders sh days).stats r1.id).saturdays =
      ((pass1 riders sh initState (days.filter fun d => isSaturdayS d)).stats r1.id).saturdays :=
    pass2_stats_saturdays _ _ _ _ _
  have hs2 : ((generateSchedule riders sh days).stats r2.id).saturdays =
      ((pass1 riders sh initState (days.filter fun d => isSaturdayS d)).stats r2.id).saturdays :=
    pass2_stats_saturdays _ _ _ _ _
  have hb1 := hinv1.1 r1.id
  rw [hs1, hs2]
  omega

set_option maxRecDepth 4000 in

theorem anchor_fairness_witness :
    ((List.range' 1 14).filter fun d => isSaturdayS d).length ≤
        ([⟨1, []⟩, ⟨2, []⟩] : List Rider).length
    ∧ (([⟨1, []⟩, ⟨2, []⟩] : List Rider).map Rider.id).Nodup
    ∧ ((generateSchedule [⟨1, []⟩, ⟨2, []⟩] shId (List.range' 1 14)).stats 1).saturdays ≤
        ((generateSchedule [⟨1, []⟩, ⟨2, []⟩] shId (List.range' 1 14)).stats 2).saturdays + 1 :=
  ⟨by decide, by decide,
    anchor_fairness [⟨1, []⟩, ⟨2, []⟩] shId (List.range' 1 14) (fun _ l => List.Perm.refl l)
      (by decide) (by decide) (by decide)
      ⟨1, []⟩ (by decide) ⟨2, []⟩ (by decide)⟩

/-- C4 (amended): when start is after end, the range expander does not fail:
it returns normally with the empty list, and the generation entry point
returns normally with an empty schedule in which no day is processed at all
(no error condition exists in the code). -/
theorem invalid_range_behavior (s e : CalDate) (riders : List Rider)
    (sh : Nat → List Rider → List Rider)
    (h : toSerial e < toSerial s) :
    generateDates s e = [] ∧
    (∀ d, (generateSchedule riders sh ((generateDates s e).map toSerial)).sched d = none) := by
  have hz : toSerial e + 1 - toSerial s = 0 := by omega
  constructor
  · unfold generateDates
    rw [hz]
    rfl
  · intro d
    unfold generateDates
    rw [hz]
    rfl

/-- C4 counterexample: for the concrete inverted range 2024-03-02..2024-03-01
the generation call does not fail with any InvalidRange condition: both
functions return normally (empty day list, schedule with no entries). -/
theorem invalid_range_counterexample :
    toSerial ⟨2024, 3, 1⟩ < toSerial ⟨2024, 3, 2⟩
    ∧ generateDates ⟨2024, 3, 2⟩ ⟨2024, 3, 1⟩ = []
    ∧ (generateSchedule [⟨1, []⟩] shId
        ((generateDates ⟨2024, 3, 2⟩ ⟨2024, 3, 1⟩).map toSerial)).sched
          (toSerial ⟨2024, 3, 1⟩) = none :=
  ⟨by decide, by decide, by decide⟩

theorem invalid_range_behavior_witness :
    toSerial ⟨2023, 12, 31⟩ < toSerial ⟨2024, 1, 1⟩
    ∧ generateDates ⟨2024, 1, 1⟩ ⟨2023, 12, 31⟩ = [] :=
  ⟨by decide,
    (invalid_range_behavior ⟨2024, 1, 1⟩ ⟨2023, 12, 31⟩ [⟨1, []⟩] shId (by decide)).1⟩

/-- C5 (amended): generation is deterministic only relative to the realized
shuffle outcomes: runs whose shuffle outcomes agree pointwise on identical
inputs produce identical schedules and identical counters. -/
theorem generation_deterministic_given_shuffle
    (riders : List Rider) (days : List Nat)
    (sh1 sh2 : Nat → List Rider → List Rider)
    (hsh : ∀ k l, sh1 k l = sh2 k l) :
    generateSchedule riders sh1 days = generateSchedule riders sh2 days := by
  have he : sh1 = sh2 := funext fun k => funext fun l => hsh k l
  rw [he]

theorem generation_deterministic_given_shuffle_witness :
    generateSchedule [⟨1, []⟩, ⟨2, []⟩] shId [1] =
      generateSchedule [⟨1, []⟩, ⟨2, []⟩] shId [1] :=
  generation_deterministic_given_shuffle [⟨1, []⟩, ⟨2, []⟩] [1] shId shId fun _ _ => rfl

/-- C5 counterexample: two runs on identical inputs whose ambient Math.random
shuffles realize different permutations assign different riders, so the
output is not reproducible from the inputs; the code has no seed parameter
(shuffle calls the ambient Math.random global directly). -/
theorem generation_not_reproducible_counterexample :
    (generateSchedule [⟨1, []⟩, ⟨2, []⟩] shId [1]).sched 1 ≠
      (generateSchedule [⟨1, []⟩, ⟨2, []⟩] shRev [1]).sched 1 := by
  decide

/- ===== Manual override cycler ===== -/

lemma listIndexOf_of_not_mem (v : Option Nat) (l : List (Option Nat)) (h : v ∉ l) :
    listIndexOf v l = -1 := by
  induction l with
  | nil => rfl
  | cons a t ih =>
    simp only [List.mem_cons, not_or] at h
    unfold listIndexOf
    rw [if_neg (fun he => h.1 he.symm), ih h.2]
    rfl

lemma listIndexOf_get (l : List (Option Nat)) (hnd : l.Nodup) (j : Nat) (hj : j < l.length) :
    listIndexOf (l.get ⟨j, hj⟩) l = (j : Int) := by
  induction l generalizing j with
  | nil => exact absurd hj (by simp)
  | cons a t ih =>
    rcases List.nodup_cons.mp hnd with ⟨hna, hnt⟩
    cases j with
    | zero =>
      have h0 : (a :: t).get ⟨0, hj⟩ = a := rfl
      rw [h0]
      unfold listIndexOf
      rw [if_pos rfl]
      exact Int.natCast_zero.symm
    | succ k =>
      have hk : k < t.length := by
        simpa using hj
      have hget : (a :: t).get ⟨k + 1, hj⟩ = t.get ⟨k, hk⟩ := rfl
      unfold listIndexOf
      rw [hget]
      have hne : a ≠ t.get ⟨k, hk⟩ := by
        intro he
        exact hna (he ▸ List.get_mem t k hk)
      rw [if_neg hne, ih hnt k hk]
      have : ((k : Int)) ≠ -1 := by omega
      rw [if_neg this]
      omega

lemma cycleListOf_length (riders : List Rider) (d : Nat) :
    (cycleListOf riders d).length = (eligibleRiders riders d).length + 1 := by
  simp [cycleListOf]

lemma cycleListOf_nodup (riders : List Rider) (d : Nat)
    (h : (riders.map Rider.id).Nodup) : (cycleListOf riders d).Nodup := by
  unfold cycleListOf
  have hsub : List.Sublist ((eligibleRiders riders d).map Rider.id) (riders.map Rider.id) :=
    List.Sublist.map _ (List.filter_sublist _)
  have hnd : ((eligibleRiders riders d).map Rider.id).Nodup := hsub.nodup h
  have hmap : (eligibleRiders riders d).map (fun r => some r.id) =
      ((eligibleRiders riders d).map Rider.id).map some := by
    rw [List.map_map]
    rfl
  refine List.Nodup.append ?_ (List.nodup_singleton none) ?_
  · rw [hmap]
    exact hnd.map (Option.some_injective Nat)
  · intro x hx hx1
    rw [hmap] at hx
    obtain ⟨y, -, hy⟩ := List.mem_map.mp hx
    rw [List.mem_singleton] at hx1
    rw [hx1] at hy
    cases hy

lemma int_next_index (j len : Nat) :
    (((j : Int) + 1) % (len : Int)).toNat = (j + 1) % len := by
  have h1 : ((j : Int) + 1) = ((j + 1 : Nat) : Int) := by push_cast; ring
  rw [h1, ← Int.ofNat_emod, Int.toNat_natCast]

/-- Value of the target day after one manualAssign step, when the current
value sits at position j of the cycle list. -/
lemma get_idx_congr (l : List (Option Nat)) (i j : Nat) (hi : i < l.length)
    (hj : j < l.length) (h : i = j) : l.get ⟨i, hi⟩ = l.get ⟨j, hj⟩ := by
  subst h
  rfl

lemma manualAssign_step (riders : List Rider) (sched : Schedule) (d : Nat)
    (hnd : (cycleListOf riders d).Nodup)
    (j : Nat) (hj : j < (cycleListOf riders d).length)
    (hcur : sched d = some ((cycleListOf riders d).get ⟨j, hj⟩)) :
    (manualAssign riders sched d) d =
      some ((cycleListOf riders d).get
        ⟨(j + 1) % (cycleListOf riders d).length,
          Nat.mod_lt _ (by omega)⟩) := by
  simp only [manualAssign]
  rw [Schedule.set_self, hcur]
  have hm : (match some ((cycleListOf riders d).get ⟨j, hj⟩) with
      | none => (-1 : Int)
      | some v => listIndexOf v (cycleListOf riders d)) =
      listIndexOf ((cycleListOf riders d).get ⟨j, hj⟩) (cycleListOf riders d) := rfl
  rw [hm]
  rw [listIndexOf_get (cycleListOf riders d) hnd j hj]
  rw [int_next_index j (cycleListOf riders d).length]
  have hlt : (j + 1) % (cycleListOf riders d).length < (cycleListOf riders d).length :=
    Nat.mod_lt _ (by omega)
  rw [List.getD_eq_getElem _ none hlt]
  rfl

/-- Iterating manualAssign walks the cycle list. -/
lemma manualAssign_iterate (riders : List Rider) (sched : Schedule) (d : Nat)
    (hnd : (cycleListOf riders d).Nodup)
    (j : Nat) (hj : j < (cycleListOf riders d).length)
    (hcur : sched d = some ((cycleListOf riders d).get ⟨j, hj⟩)) :
    ∀ k, ((fun s => manualAssign riders s d)^[k] sched) d =
      some ((cycleListOf riders d).get
        ⟨(j + k) % (cycleListOf riders d).length, Nat.mod_lt _ (by omega)⟩) := by
  intro k
  induction k with
  | zero =>
    simp only [Function.iterate_zero, id]
    rw [hcur]
    congr 1
    apply get_idx_congr
    rw [Nat.add_zero]
    exact (Nat.mod_eq_of_lt hj).symm
  | succ m ih =>
    rw [Function.iterate_succ_apply']
    have hstep := manualAssign_step riders _ d hnd ((j + m) % (cycleListOf riders d).length)
      (Nat.mod_lt _ (by omega)) ih
    rw [hstep]
    congr 1
    apply get_idx_congr
    rw [Nat.mod_add_mod, Nat.add_assoc]

/-- C7 (amended): with distinct rider ids, whenever the target day's current
entry holds a value of the cycle list (explicit null, or an eligible
rider's id), invoking manualAssign (eligible count + 1) times in succession
returns the day to its original assignment. -/
theorem manual_cycle_closed
    (riders : List Rider) (sched : Schedule) (d : Nat) (v : Option Nat)
    (hnodup : (riders.map Rider.id).Nodup)
    (hcur : sched d = some v)
    (hv : v ∈ cycleListOf riders d) :
    ((fun s => manualAssign riders s d)^[(eligibleRiders riders d).length + 1] sched) d
      = sched d := by
  have hnd := cycleListOf_nodup riders d hnodup
  obtain ⟨jf, hget⟩ := List.get_of_mem hv
  have hcur' : sched d = some ((cycleListOf riders d).get jf) := by
    rw [hget]
    exact hcur
  have hlen : (eligibleRiders riders d).length + 1 = (cycleListOf riders d).length :=
    (cycleListOf_length riders d).symm
  rw [hlen]
  have hit := manualAssign_iterate riders sched d hnd jf.1 jf.2 hcur'
    (cycleListOf riders d).length
  rw [hit, hcur']
  congr 1
  apply get_idx_congr
  rw [Nat.add_mod_right]
  exact Nat.mod_eq_of_lt jf.2

/-- C7 counterexample: when the target day currently holds a stale rider id
(not eligible for that day), cycling (eligible count + 1) times does not
restore the original assignment: the day ends at the null sentinel. -/
theorem manual_cycle_counterexample :
    ((fun s => manualAssign [⟨1, []⟩] s 5)^[(eligibleRiders [⟨1, []⟩] 5).length + 1]
        (Schedule.set initState.sched 5 (some 99))) 5
      ≠ (Schedule.set initState.sched 5 (some 99)) 5 := by
  decide

theorem manual_cycle_closed_witness :
    (([⟨1, []⟩] : List Rider).map Rider.id).Nodup
    ∧ (Schedule.set initState.sched 5 (some 1)) 5 = some (some 1)
    ∧ some 1 ∈ cycleListOf [⟨1, []⟩] 5
    ∧ ((fun s => manualAssign [⟨1, []⟩] s 5)^[(eligibleRiders [⟨1, []⟩] 5).length + 1]
        (Schedule.set initState.sched 5 (some 1))) 5
      = (Schedule.set initState.sched 5 (some 1)) 5 :=
  ⟨by decide, by decide, by decide,
    manual_cycle_closed [⟨1, []⟩] (Schedule.set initState.sched 5 (some 1)) 5 (some 1)
      (by decide) (by decide) (by decide)⟩

/-- C8 (amended): manualAssign returns a new schedule that agrees with the
input schedule on every day other than the target; the target day's entry
itself changes, except in the degenerate case where no rider is eligible
and the day is already explicitly unassigned (the null sentinel cycles to
itself). -/
theorem manual_override_frame
    (riders : List Rider) (sched : Schedule) (d : Nat)
    (hnodup : (riders.map Rider.id).Nodup) :
    (∀ k, k ≠ d → manualAssign riders sched d k = sched k) ∧
    ((eligibleRiders riders d ≠ [] ∨ sched d ≠ some none) →
      manualAssign riders sched d d ≠ sched d) := by
  constructor
  · intro k hk
    simp only [manualAssign]
    exact Schedule.set_ne _ _ _ _ hk
  · intro hcase heq
    have hnd := cycleListOf_nodup riders d hnodup
    have hlenpos : 0 < (cycleListOf riders d).length := by
      rw [cycleListOf_length]
      omega
    cases hv : sched d with
    | none =>
      rw [hv] at heq
      simp only [manualAssign, hv] at heq
      rw [Schedule.set_self] at heq
      cases heq
    | some v =>
      by_cases hmem : v ∈ cycleListOf riders d
      · obtain ⟨jf, hget⟩ := List.get_of_mem hmem
        have hstep := manualAssign_step riders sched d hnd jf.1 jf.2
          (by rw [hv, hget])
        rw [hstep, hv] at heq
        injection heq with heq
        rw [← hget] at heq
        have hij := (List.Nodup.get_inj_iff hnd).mp heq
        have hj1 : (jf.1 + 1) % (cycleListOf riders d).length = jf.1 :=
          congrArg Fin.val hij
        have hjlt : jf.1 < (cycleListOf riders d).length := jf.2
        have hlen1 : (cycleListOf riders d).length = 1 := by
          rcases Nat.lt_or_ge (jf.1 + 1) (cycleListOf riders d).length with hlt | hge
          · rw [Nat.mod_eq_of_lt hlt] at hj1
            omega
          · have he : jf.1 + 1 = (cycleListOf riders d).length := by omega
            rw [he, Nat.mod_self] at hj1
            omega
        have helig : (eligibleRiders riders d).length = 0 := by
          have := cycleListOf_length riders d
          omega
        have heln : eligibleRiders riders d = [] := List.length_eq_zero.mp helig
        have hcl : cycleListOf riders d = [none] := by
          unfold cycleListOf
          rw [heln]
          rfl
        rw [hcl] at hmem
        rcases List.mem_singleton.mp hmem with rfl
        rcases hcase with hc | hc
        · exact hc heln
        · exact hc hv
      · have hstale : listIndexOf v (cycleListOf riders d) = -1 :=
          listIndexOf_of_not_mem v _ hmem
        simp only [manualAssign, hv] at heq
        rw [Schedule.set_self] at heq
        rw [hstale] at heq
        have h0 : ((-1 : Int) + 1) = 0 := by norm_num
        rw [h0, Int.zero_emod, Int.toNat_zero] at heq
        rw [List.getD_eq_getElem _ none hlenpos] at heq
        injection heq with heq
        apply hmem
        rw [← heq]
        exact List.getElem_mem hlenpos

theorem manual_override_frame_witness :
    (([⟨1, []⟩] : List Rider).map Rider.id).Nodup
    ∧ manualAssign [⟨1, []⟩] initState.sched 5 5 ≠ initState.sched 5 :=
  ⟨by decide,
    (manual_override_frame [⟨1, []⟩] initState.sched 5 (by decide)).2 (Or.inl (by decide))⟩

/-- C8 counterexample: with no eligible rider and the target day already
explicitly unassigned, manualAssign leaves the target day's entry unchanged
(the null sentinel cycles to itself), so no entry of the schedule changes. -/
theorem manual_override_counterexample :
    manualAssign [] (Schedule.set initState.sched 5 none) 5 5
      = (Schedule.set initState.sched 5 none) 5 := by
  decide

lemma backToSundayAux_eq (n d : Nat) (h : d % 7 < n) : backToSundayAux n d = d - d % 7 := by
  induction n generalizing d with
  | zero => omega
  | succ k ih =>
    unfold backToSundayAux
    by_cases h0 : d % 7 = 0
    · rw [if_pos h0]
      omega
    · rw [if_neg h0]
      rw [ih (d - 1) (by omega)]
      omega

/-- The walk-back loop lands on the greatest Sunday-serial at or before d. -/
lemma backToSunday_eq (d : Nat) : backToSunday d = d - d % 7 :=
  backToSundayAux_eq 7 d (Nat.mod_lt d (by omega))

lemma workedLastWeekend_iff (sched : Schedule) (d cid : Nat) :
    workedLastWeekend sched d cid = true ↔ workedSpec sched d (backToSunday d) cid := by
  unfold workedLastWeekend workedSpec
  rw [List.any_eq_true]
  constructor
  · rintro ⟨x, hx, hpx⟩
    refine ⟨x, hx, ?_⟩
    by_cases hdx : d ≤ x
    · rw [if_pos hdx] at hpx
      cases hpx
    · rw [if_neg hdx] at hpx
      exact ⟨by omega, of_decide_eq_true hpx⟩
  · rintro ⟨x, hx, hlt, hass⟩
    refine ⟨x, hx, ?_⟩
    rw [if_neg (by omega)]
    exact decide_eq_true hass

/-- C6: on a Friday/Saturday/Sunday fill day, the soft weekend filter never
empties the pool, the weekend triple it consults is the genuine
Friday/Saturday/Sunday ending at the nearest Sunday at or before the day
(computed by the walk-back loop), and a remaining candidate survives the
filter exactly when they are not assigned on a strictly-past day of that
triple or when every remaining candidate is (in which case nobody is
removed). -/
theorem weekend_repeat_filter_correct
    (sched : Schedule) (d : Nat) (cands : List Rider)
    (h9 : 9 ≤ d) (hfss : isFriSatSunS d = true) :
    (cands ≠ [] → weekendFiltered sched d cands ≠ []) ∧
    (backToSunday d % 7 = 0 ∧ backToSunday d ≤ d ∧ d < backToSunday d + 7 ∧
      (backToSunday d - 2) % 7 = 5 ∧ (backToSunday d - 1) % 7 = 6) ∧
    (∀ r ∈ cands, (r ∈ weekendFiltered sched d cands ↔
      (¬ workedSpec sched d (backToSunday d) r.id ∨
        ∀ r2 ∈ cands, workedSpec sched d (backToSunday d) r2.id))) := by
  refine ⟨?_, ?_, ?_⟩
  · intro hne
    simp only [weekendFiltered]
    rw [if_pos hfss]
    by_cases hemp : (cands.filter fun r => !(workedLastWeekend sched d r.id)).isEmpty = true
    · rw [if_pos hemp]
      exact hne
    · rw [if_neg hemp]
      intro hnil
      rw [hnil] at hemp
      exact hemp rfl
  · rw [backToSunday_eq]
    refine ⟨by omega, by omega, by omega, by omega, by omega⟩
  · intro r hr
    simp only [weekendFiltered]
    rw [if_pos hfss]
    by_cases hemp : (cands.filter fun r => !(workedLastWeekend sched d r.id)).isEmpty = true
    · rw [if_pos hemp]
      rw [List.isEmpty_iff, List.filter_eq_nil_iff] at hemp
      constructor
      · intro _
        right
        intro r2 hr2
        have h2 := hemp r2 hr2
        have h2' : workedLastWeekend sched d r2.id = true := by
          revert h2
          cases workedLastWeekend sched d r2.id <;> simp
        exact (workedLastWeekend_iff sched d r2.id).mp h2'
      · intro _
        exact hr
    · rw [if_neg hemp]
      have hex : ∃ r0 ∈ cands, ¬ workedSpec sched d (backToSunday d) r0.id := by
        have hne : List.filter (fun r => !workedLastWeekend sched d r.id) cands ≠ [] := by
          intro hn
          apply hemp
          rw [List.isEmpty_iff]
          exact hn
        obtain ⟨r0, hr0⟩ := List.exists_mem_of_ne_nil _ hne
        have hr0f := List.mem_filter.mp hr0
        refine ⟨r0, hr0f.1, ?_⟩
        intro hws
        have hw := (workedLastWeekend_iff sched d r0.id).mpr hws
        rw [hw] at hr0f
        simp at hr0f
      constructor
      · intro hmem
        left
        have hf := (List.mem_filter.mp hmem).2
        intro hws
        have := (workedLastWeekend_iff sched d r.id).mpr hws
        rw [this] at hf
        simp at hf
      · intro hor
        rcases hor with hnw | hall
        · refine List.mem_filter.mpr ⟨hr, ?_⟩
          show (!workedLastWeekend sched d r.id) = true
          have hw : workedLastWeekend sched d r.id = false := by
            by_cases hwt : workedLastWeekend sched d r.id = true
            · exact absurd ((workedLastWeekend_iff sched d r.id).mp hwt) hnw
            · revert hwt
              cases workedLastWeekend sched d r.id <;> simp
          rw [hw]
          rfl
        · obtain ⟨r0, hr0, hnr0⟩ := hex
          exact absurd (hall r0 hr0) hnr0

theorem weekend_repeat_filter_correct_witness :
    9 ≤ 13 ∧ isFriSatSunS 13 = true ∧
    weekendFiltered (Schedule.set initState.sched 6 (some 1)) 13
        [⟨1, []⟩, ⟨2, []⟩] ≠ [] :=
  ⟨by omega, by decide,
    (weekend_repeat_filter_correct (Schedule.set initState.sched 6 (some 1)) 13
        [⟨1, []⟩, ⟨2, []⟩] (by omega) (by decide)).1 (by decide)⟩

/- ===== iCal export serializer (src/utils/icalGenerator.js) =====
   Content lines are modelled as lists of characters; the serializer output
   is modelled as the list of physical lines of the document, which the
   source joins with CRLF terminators (line folding inserts CRLF plus one
   space, i.e. starts a new physical line with a leading space).  A
   JavaScript string's .length and .substring count UTF-16 code units; for
   the basic-multilingual-plane text handled here those coincide with the
   characters counted by List.length. -/

lemma natCharsAux_length_le (fuel : Nat) :
    ∀ n k, 1 ≤ k → k ≤ fuel → n < 10 ^ k → (natCharsAux fuel n).length ≤ k := by
  induction fuel with
  | zero => intro n k h1 hk _; omega
  | succ f ih =>
    intro n k h1 hk hn
    unfold natCharsAux
    by_cases h10 : n < 10
    · rw [if_pos h10]
      simpa using h1
    · rw [if_neg h10]
      have hk2 : 2 ≤ k := by
        by_contra hlt
        have hk1 : k = 1 := by omega
        rw [hk1, pow_one] at hn
        omega
      have hdiv : n / 10 < 10 ^ (k - 1) := by
        rw [Nat.div_lt_iff_lt_mul (by norm_num)]
        calc n < 10 ^ k := hn
          _ = 10 ^ (k - 1) * 10 := by
              rw [← pow_succ]
              congr 1
              omega
      have hrec := ih (n / 10) (k - 1) (by omega) (by omega) hdiv
      rw [List.length_append, List.length_singleton]
      omega

lemma natChars_length_le_five (n : Nat) (h : n ≤ 99999) : (natChars n).length ≤ 5 := by
  unfold natChars
  rcases Nat.lt_or_ge n 10 with h1 | h1
  · have := natCharsAux_length_le (n + 1) n 1 (by omega) (by omega) (by norm_num; omega)
    omega
  rcases Nat.lt_or_ge n 100 with h2 | h2
  · have := natCharsAux_length_le (n + 1) n 2 (by omega) (by omega) (by norm_num; omega)
    omega
  rcases Nat.lt_or_ge n 1000 with h3 | h3
  · have := natCharsAux_length_le (n + 1) n 3 (by omega) (by omega) (by norm_num; omega)
    omega
  rcases Nat.lt_or_ge n 10000 with h4 | h4
  · have := natCharsAux_length_le (n + 1) n 4 (by omega) (by omega) (by norm_num; omega)
    omega
  have := natCharsAux_length_le (n + 1) n 5 (by omega) (by omega) (by norm_num; omega)
  omega

lemma pad2_length_le (n : Nat) (h : n ≤ 99) : (pad2 n).length ≤ 2 := by
  unfold pad2
  by_cases h10 : n < 10
  · rw [if_pos h10]
    rw [List.length_cons]
    have := natChars_length_le_five n (by omega)
    unfold natChars at this ⊢
    have h1 := natCharsAux_length_le (n + 1) n 1 (by omega) (by omega) (by norm_num; omega)
    omega
  · rw [if_neg h10]
    have h2 := natCharsAux_length_le (n + 1) n 2 (by omega) (by omega) (by norm_num; omega)
    unfold natChars
    omega

lemma daysInMonth_le_31 (y m : Nat) : daysInMonth y m ≤ 31 := by
  unfold daysInMonth
  repeat' split
  all_goals omega

lemma nextDay_year_le (d : CalDate) : (nextDay d).year ≤ d.year + 1 := by
  unfold nextDay
  by_cases h1 : d.day < daysInMonth d.year d.month
  · rw [if_pos h1]
    show d.year ≤ d.year + 1
    omega
  · rw [if_neg h1]
    by_cases h2 : d.month < 12
    · rw [if_pos h2]
      show d.year ≤ d.year + 1
      omega
    · rw [if_neg h2]

lemma fmtICalDate_length_le (dt : CalDate) (hv : validDate dt) (hy : dt.year ≤ 99999) :
    (fmtICalDate dt).length ≤ 9 := by
  obtain ⟨-, -, hm, -, hd⟩ := hv
  unfold fmtICalDate
  rw [List.length_append, List.length_append]
  have h1 := natChars_length_le_five dt.year hy
  have h2 := pad2_length_le dt.month (by omega)
  have h3 := pad2_length_le dt.day (by
    have := daysInMonth_le_31 dt.year dt.month
    omega)
  omega

lemma mem_generateICal_of_eventLine (ts : List Char) (events : List CalEvent)
    (e : CalEvent) (line : List Char)
    (he : e ∈ events) (hl : line ∈ eventLines ts e) (hlen : line.length ≤ 75) :
    line ∈ generateICalContent ts events := by
  have h1 : line ∈ events.flatMap (fun e2 => (eventLines ts e2).flatMap foldLine) := by
    rw [List.mem_flatMap]
    refine ⟨e, he, ?_⟩
    rw [List.mem_flatMap]
    refine ⟨line, hl, ?_⟩
    unfold foldLine
    rw [if_pos hlen]
    exact List.mem_singleton.mpr rfl
  unfold generateICalContent
  rw [List.append_assoc]
  exact List.mem_append_right _ (List.mem_append_left _ h1)

/-- C9: the serializer emits for every input event a DTSTART line carrying
the event date as YYYYMMDD and a DTEND line carrying the calendar successor
(serial number + 1) of the event date as YYYYMMDD; in particular a single
event dated 2023-10-01 yields the lines DTSTART;VALUE=DATE:20231001 and
DTEND;VALUE=DATE:20231002. -/
theorem dtstart_dtend_correct
    (ts : List Char) (events : List CalEvent) (e : CalEvent)
    (he : e ∈ events) (hv : validDate e.date) (hy : e.date.year ≤ 9999) :
    ("DTSTART;VALUE=DATE:".data ++ fmtICalDate e.date) ∈ generateICalContent ts events
    ∧ (∃ d2, validDate d2 ∧ toSerial d2 = toSerial e.date + 1 ∧
        ("DTEND;VALUE=DATE:".data ++ fmtICalDate d2) ∈ generateICalContent ts events)
    ∧ "DTSTART;VALUE=DATE:20231001".data ∈
        generateICalContent "T".data [⟨⟨2023, 10, 1⟩, 1, "S".data, "D".data⟩]
    ∧ "DTEND;VALUE=DATE:20231002".data ∈
        generateICalContent "T".data [⟨⟨2023, 10, 1⟩, 1, "S".data, "D".data⟩] := by
  refine ⟨?_, ?_, ?_, ?_⟩
  · apply mem_generateICal_of_eventLine ts events e _ he
    · unfold eventLines
      exact List.mem_cons_of_mem _ (List.mem_cons_self _ _)
    · rw [List.length_append]
      have h1 := fmtICalDate_length_le e.date hv (by omega)
      have h2 : ("DTSTART;VALUE=DATE:".data).length = 19 := by decide
      omega
  · refine ⟨nextDay e.date, validDate_nextDay e.date hv, toSerial_nextDay e.date hv, ?_⟩
    apply mem_generateICal_of_eventLine ts events e _ he
    · unfold eventLines
      exact List.mem_cons_of_mem _ (List.mem_cons_of_mem _ (List.mem_cons_self _ _))
    · rw [List.length_append]
      have hyn := nextDay_year_le e.date
      have h1 := fmtICalDate_length_le (nextDay e.date) (validDate_nextDay e.date hv)
        (by omega)
      have h2 : ("DTEND;VALUE=DATE:".data).length = 17 := by decide
      omega
  · decide
  · decide

theorem dtstart_dtend_correct_witness :
    (⟨⟨2023, 10, 1⟩, 1, "S".data, "D".data⟩ : CalEvent) ∈
        [(⟨⟨2023, 10, 1⟩, 1, "S".data, "D".data⟩ : CalEvent)]
    ∧ validDate ⟨2023, 10, 1⟩
    ∧ ("DTSTART;VALUE=DATE:".data ++ fmtICalDate ⟨2023, 10, 1⟩) ∈
        generateICalContent "T".data [⟨⟨2023, 10, 1⟩, 1, "S".data, "D".data⟩] :=
  ⟨by decide, by decide,
    (dtstart_dtend_correct "T".data [⟨⟨2023, 10, 1⟩, 1, "S".data, "D".data⟩]
        ⟨⟨2023, 10, 1⟩, 1, "S".data, "D".data⟩ (by decide) (by decide) (by decide)).1⟩

lemma utf8Octets_eq_length (l : List Char) (h : ∀ c ∈ l, c.utf8Size = 1) :
    utf8Octets l = l.length := by
  unfold utf8Octets
  induction l with
  | nil => rfl
  | cons c cs ih =>
    rw [List.map_cons, List.sum_cons, h c (List.mem_cons_self c cs),
      ih fun x hx => h x (List.mem_cons_of_mem c hx)]
    rw [List.length_cons]
    omega

lemma foldChunksAux_spec (fuel : Nat) :
    ∀ l : List Char, l.length ≤ fuel →
      (∀ out ∈ foldChunksAux fuel l, out.length ≤ 75 ∧ out.head? = some ' ' ∧
        ∀ c ∈ out, c = ' ' ∨ c ∈ l) ∧
      (foldChunksAux fuel l).flatMap (fun out => out.tail) = l := by
  induction fuel with
  | zero =>
    intro l hl
    have hnil : l = [] := List.length_eq_zero.mp (by omega)
    subst hnil
    exact ⟨fun out hout => absurd hout (List.not_mem_nil out), rfl⟩
  | succ f ih =>
    intro l hl
    cases l with
    | nil => exact ⟨fun out hout => absurd hout (List.not_mem_nil out), rfl⟩
    | cons c cs =>
      have hdrop : ((c :: cs).drop 74).length ≤ f := by
        rw [List.length_drop]
        simp only [List.length_cons] at hl ⊢
        omega
      obtain ⟨ihA, ihB⟩ := ih ((c :: cs).drop 74) hdrop
      have hunf : foldChunksAux (f + 1) (c :: cs) =
          (' ' :: (c :: cs).take 74) :: foldChunksAux f ((c :: cs).drop 74) := rfl
      constructor
      · intro out hout
        rw [hunf] at hout
        rcases List.mem_cons.mp hout with rfl | hout
        · refine ⟨?_, rfl, ?_⟩
          · rw [List.length_cons]
            have htl := List.length_take 74 (c :: cs)
            omega
          · intro x hx
            rcases List.mem_cons.mp hx with rfl | hx
            · exact Or.inl rfl
            · exact Or.inr (List.take_subset _ _ hx)
        · obtain ⟨h1, h2, h3⟩ := ihA out hout
          exact ⟨h1, h2, fun x hx => (h3 x hx).imp id fun hm => List.drop_subset _ _ hm⟩
      · rw [hunf, List.flatMap_cons, ihB]
        show (c :: cs).take 74 ++ (c :: cs).drop 74 = c :: cs
        exact List.take_append_drop 74 (c :: cs)

/-- C10 (amended): foldLine folds by UTF-16 code units (characters), not
octets: every physical line it outputs is at most 75 characters long, the
first output line is the first 75 characters of the input, every
continuation line starts with one space, dropping each continuation's
leading space restores the input exactly, and for one-octet-per-character
(ASCII) content every output line is also at most 75 octets — in particular
the 100-character ASCII description line folds into lines of at most 75
octets each. -/
theorem fold_line_code_units (line : List Char) :
    (∀ out ∈ foldLine line, out.length ≤ 75)
    ∧ (foldLine line).head? = some (line.take 75)
    ∧ (∀ out ∈ (foldLine line).tail, out.head? = some ' ')
    ∧ line.take 75 ++ ((foldLine line).tail.flatMap fun out => out.tail) = line
    ∧ ((∀ c ∈ line, c.utf8Size = 1) → ∀ out ∈ foldLine line, utf8Octets out ≤ 75)
    ∧ (∀ out ∈ foldLine ("DESCRIPTION:".data ++ List.replicate 100 'A'),
        utf8Octets out ≤ 75) := by
  by_cases hlen : line.length ≤ 75
  · have hfl : foldLine line = [line] := by
      unfold foldLine
      rw [if_pos hlen]
    have htk : line.take 75 = line := List.take_of_length_le hlen
    refine ⟨?_, ?_, ?_, ?_, ?_, by decide⟩
    · intro out hout
      rw [hfl, List.mem_singleton] at hout
      subst hout
      exact hlen
    · rw [hfl, htk]
      rfl
    · intro out hout
      rw [hfl] at hout
      exact absurd hout (List.not_mem_nil out)
    · rw [hfl, htk]
      show line ++ ([] : List (List Char)).flatMap (fun out => out.tail) = line
      simp
    · intro hascii out hout
      rw [hfl, List.mem_singleton] at hout
      subst hout
      rw [utf8Octets_eq_length out hascii]
      exact hlen
  · have hfl : foldLine line =
        line.take 75 :: foldChunksAux (line.drop 75).length (line.drop 75) := by
      unfold foldLine
      rw [if_neg hlen]
    obtain ⟨hA, hB⟩ := foldChunksAux_spec (line.drop 75).length (line.drop 75) (le_refl _)
    refine ⟨?_, ?_, ?_, ?_, ?_, by decide⟩
    · intro out hout
      rw [hfl] at hout
      rcases List.mem_cons.mp hout with rfl | hout
      · have := List.length_take 75 line
        omega
      · exact (hA out hout).1
    · rw [hfl]
      rfl
    · intro out hout
      rw [hfl] at hout
      exact (hA out hout).2.1
    · rw [hfl]
      show line.take 75 ++ (foldChunksAux (line.drop 75).length (line.drop 75)).flatMap
          (fun out => out.tail) = line
      rw [hB]
      exact List.take_append_drop 75 line
    · intro hascii out hout
      rw [hfl] at hout
      rcases List.mem_cons.mp hout with rfl | hout
      · rw [utf8Octets_eq_length _ fun c hc => hascii c (List.take_subset _ _ hc)]
        have := List.length_take 75 line
        omega
      · obtain ⟨h1, -, h3⟩ := hA out hout
        rw [utf8Octets_eq_length out ?_]
        · exact h1
        · intro c hc
          rcases h3 c hc with rfl | hm
          · decide
          · exact hascii c (List.drop_subset _ _ hm)

/-- C10 counterexample: a DESCRIPTION content line whose body is 60 copies
of the Norwegian letter å is only 72 code units long, so the serializer
leaves it unfolded, yet its UTF-8 serialization is 132 octets: the output
contains a line exceeding 75 octets, and a content line exceeding 75 octets
(132 > 75) was not split at octet boundaries. -/
theorem fold_octets_counterexample :
    ("DESCRIPTION:".data ++ List.replicate 60 'å') ∈
        generateICalContent "T".data
          [⟨⟨2023, 10, 1⟩, 1, "S".data, List.replicate 60 'å'⟩]
    ∧ utf8Octets ("DESCRIPTION:".data ++ List.replicate 60 'å') = 132
    ∧ 75 < utf8Octets ("DESCRIPTION:".data ++ List.replicate 60 'å') := by
  refine ⟨by decide, by decide, by decide⟩

theorem fold_line_code_units_witness :
    (foldLine (List.replicate 100 'A')).head? = some (List.replicate 75 'A') := by
  rw [(fold_line_code_units (List.replicate 100 'A')).2.1]
  decide
